import Mathlib

/-!
Verification of the page-layout and typesetting engine of this repository
(`utils/count_bbox_size.py`, `utils/generate_json_with_sizes.py`,
`document_pipeline/layout_generation.py`,
`pict_data_pipeline/layout_generation_with_image.py`).

Modelling conventions:
* Python `int` is `ℤ`; Python `float` arithmetic on the layout path is modelled
  by exact rational arithmetic `ℚ` (every quantity flowing there is an integer
  scaled by small rational factors such as `dpi / 72`, far inside the range
  where IEEE doubles are exact or where the trailing `int(round(.))` absorbs
  the representation error).
* Python `round` rounds half to even; `pyRound` below reproduces that.
* Python strings are `List Char`.
* External font-metric oracles (`reportlab.pdfmetrics.stringWidth`,
  ascent/descent queries) are parameters (`widthOf`, `lineHpt`, `spacePx`, ...)
  of the embedded functions, exactly as wide as the values the library can
  hand back.
-/

/-- Python `int(round(x))`: round half to even, as a map `ℚ → ℤ`. -/
def pyRound (q : ℚ) : ℤ :=
  if q - ⌊q⌋ < 1/2 then ⌊q⌋
  else if 1/2 < q - ⌊q⌋ then ⌊q⌋ + 1
  else if ⌊q⌋ % 2 = 0 then ⌊q⌋ else ⌊q⌋ + 1

theorem pyRound_intCast (n : ℤ) : pyRound (n : ℚ) = n := by
  simp [pyRound]

theorem floor_le_pyRound (q : ℚ) : ⌊q⌋ ≤ pyRound q := by
  unfold pyRound
  split_ifs <;> omega

theorem pyRound_le_ceil (q : ℚ) : pyRound q ≤ ⌈q⌉ := by
  have hfc : ⌊q⌋ ≤ ⌈q⌉ := Int.floor_le_ceil q
  unfold pyRound
  split_ifs with h1 h2 h3
  · exact hfc
  · have hq : (⌊q⌋ : ℚ) < q := by linarith
    have := Int.lt_ceil.mpr hq
    omega
  · exact hfc
  · have hq : (⌊q⌋ : ℚ) < q := by linarith
    have := Int.lt_ceil.mpr hq
    omega

theorem int_le_pyRound {L : ℤ} {q : ℚ} (h : (L : ℚ) ≤ q) : L ≤ pyRound q := by
  have h1 : L ≤ ⌊q⌋ := Int.le_floor.mpr h
  have h2 := floor_le_pyRound q
  omega

theorem pyRound_le_int {U : ℤ} {q : ℚ} (h : q ≤ (U : ℚ)) : pyRound q ≤ U := by
  have h1 : ⌈q⌉ ≤ U := Int.ceil_le.mpr h
  have h2 := pyRound_le_ceil q
  omega

theorem pyRound_nonneg {q : ℚ} (h : 0 ≤ q) : 0 ≤ pyRound q := by
  have : ((0 : ℤ) : ℚ) ≤ q := by exact_mod_cast h
  exact int_le_pyRound this

theorem pyRound_mono {q r : ℚ} (h : q ≤ r) : pyRound q ≤ pyRound r := by
  rcases lt_or_eq_of_le (Int.floor_mono h) with hlt | heq
  · have h1 : pyRound q ≤ ⌈q⌉ := pyRound_le_ceil q
    have h2 : (⌈q⌉ : ℤ) ≤ ⌊q⌋ + 1 := Int.ceil_le_floor_add_one q
    have h3 : ⌊r⌋ ≤ pyRound r := floor_le_pyRound r
    omega
  · unfold pyRound
    rw [heq]
    split_ifs <;> first | omega | linarith

/-! ## Text wrapper (`utils/count_bbox_size.py`, `wrap_text_to_lines`)

`string_width_px(s, font, size, dpi)` is an external reportlab call; it enters
every embedded function as an oracle `widthOf : List Char → ℚ` (width in
pixels, already converted by `pt_to_px`). -/

/-- Python `str.split(sep)` for a one-character separator: keeps empty
segments, `"".split(sep) == [""]`. -/
def splitOnChar (sep : Char) : List Char → List (List Char)
  | [] => [[]]
  | c :: cs =>
    let r := splitOnChar sep cs
    if c = sep then [] :: r
    else
      match r with
      | [] => [[c]]
      | g :: gs => (c :: g) :: gs

/-- Python `line.replace("\t", "    ")`: each tab becomes four spaces. -/
def expandTabs (line : List Char) : List Char :=
  (line.map fun c => if c = '\t' then [' ', ' ', ' ', ' '] else [c]).flatten

/-- The character-by-character hard-break loop of `wrap_one_line`
(state: chars still to process, current `chunk`, with `cand = chunk + ch`
inlined); returns the emitted chunks and the final `chunk`. -/
def hardBreak (fits : List Char → Bool) : List Char → List Char → List (List Char) × List Char
  | [], chunk => ([], chunk)
  | ch :: rest, chunk =>
    if fits (chunk ++ [ch]) || chunk = [] then hardBreak fits rest (chunk ++ [ch])
    else
      (chunk :: (hardBreak fits rest [ch]).1, (hardBreak fits rest [ch]).2)

/-- The word loop of `wrap_one_line` (state: words still to process, current
`cur` accumulator); returns the emitted lines, including the final
`if cur: out.append(cur)`.  The Python `out.append(cur); cur = ""` before the
two `fits` retries is the `(if cur = [] then [] else [cur]) ++ ...` prefix. -/
def wrapWords (fits : List Char → Bool) : List (List Char) → List Char → List (List Char)
  | [], cur => if cur = [] then [] else [cur]
  | w :: ws, cur =>
    if fits (if cur = [] then w else cur ++ ' ' :: w) then
      wrapWords fits ws (if cur = [] then w else cur ++ ' ' :: w)
    else
      (if cur = [] then [] else [cur]) ++
        (if fits w then wrapWords fits ws w
         else (hardBreak fits w []).1 ++ wrapWords fits ws (hardBreak fits w []).2)

/-- `wrap_one_line` from `wrap_text_to_lines`. -/
def wrapOneLine (widthOf : List Char → ℚ) (maxTextWidthPx : ℤ) (line : List Char) :
    List (List Char) :=
  if line = [] then [[]]
  else
    let expanded := expandTabs line
    let words := splitOnChar ' ' expanded
    wrapWords (fun s => decide (widthOf s ≤ (maxTextWidthPx : ℚ))) words []

/-- `wrap_text_to_lines(text, max_text_width_px, ...)`: split on explicit
newlines, wrap each segment. -/
def wrapTextToLines (widthOf : List Char → ℚ) (text : List Char) (maxTextWidthPx : ℤ) :
    List (List Char) :=
  ((splitOnChar '\n' text).map (wrapOneLine widthOf maxTextWidthPx)).flatten

/-- A realizable width oracle: every character advances half a pixel
(a monospace face at a size where one glyph is 0.5 px wide, e.g. a very
small `font_size_pt` at low dpi). -/
def halfPxWidth (s : List Char) : ℚ := (s.length : ℚ) / 2

theorem halfPxWidth_pos : ∀ s : List Char, s ≠ [] → 0 < halfPxWidth s := by
  intro s hs
  have : 0 < s.length := List.length_pos.mpr hs
  have : (0 : ℚ) < (s.length : ℚ) := by exact_mod_cast this
  unfold halfPxWidth
  linarith

theorem splitOnChar_ne_nil (sep : Char) : ∀ s : List Char, splitOnChar sep s ≠ [] := by
  intro s
  cases s with
  | nil => simp [splitOnChar]
  | cons c cs =>
    unfold splitOnChar
    split_ifs
    · simp
    · cases splitOnChar sep cs <;> simp

theorem flatten_splitOnChar (sep : Char) :
    ∀ s : List Char, (splitOnChar sep s).flatten = s.filter (fun c => decide (c ≠ sep)) := by
  intro s
  induction s with
  | nil => simp [splitOnChar]
  | cons c cs ih =>
    unfold splitOnChar
    by_cases hc : c = sep
    · rw [if_pos hc, List.flatten_cons, List.nil_append, ih,
        List.filter_cons_of_neg (by simp [hc])]
    · rw [if_neg hc]
      have hne := splitOnChar_ne_nil sep cs
      cases hr : splitOnChar sep cs with
      | nil => exact absurd hr hne
      | cons g gs =>
        rw [hr] at ih
        rw [List.filter_cons_of_pos (by simp [hc]), ← ih]
        simp

theorem hardBreak_snd_ne_nil (fits : List Char → Bool) :
    ∀ (rest chunk : List Char), chunk ≠ [] → (hardBreak fits rest chunk).2 ≠ [] := by
  intro rest
  induction rest with
  | nil => intro chunk h; simpa [hardBreak] using h
  | cons ch rest ih =>
    intro chunk h
    unfold hardBreak
    split_ifs with hcond
    · exact ih (chunk ++ [ch]) (by simp)
    · exact ih [ch] (by simp)

theorem hardBreak_all_reject (fits : List Char → Bool)
    (hf : ∀ s : List Char, s ≠ [] → fits s = false) :
    ∀ (rest chunk : List Char), chunk ≠ [] →
      (hardBreak fits rest chunk).1 ++ [(hardBreak fits rest chunk).2] =
        chunk :: rest.map (fun c => [c]) := by
  intro rest
  induction rest with
  | nil => intro chunk _; simp [hardBreak]
  | cons ch rest ih =>
    intro chunk h
    unfold hardBreak
    have hcand : fits (chunk ++ [ch]) = false := hf _ (by simp)
    have hcond : (fits (chunk ++ [ch]) || decide (chunk = [])) = false := by
      simp [hcand, h]
    simp only [hcond, Bool.false_eq_true, if_false, List.cons_append, List.map_cons]
    rw [ih [ch] (by simp)]

theorem wrapWords_all_reject (fits : List Char → Bool)
    (hf : ∀ s : List Char, s ≠ [] → fits s = false) :
    ∀ (ws : List (List Char)) (cur : List Char),
      wrapWords fits ws cur =
        (if cur = [] then [] else [cur]) ++ ws.flatten.map (fun c => [c]) := by
  intro ws
  induction ws with
  | nil => intro cur; simp [wrapWords]
  | cons w ws ih =>
    intro cur
    unfold wrapWords
    rcases eq_or_ne w [] with hw | hw
    · -- empty word: the candidate equals `cur` plus a space (or is empty); in
      -- every branch the accumulator collapses to the same continuation
      subst hw
      rcases eq_or_ne cur [] with hc | hc
      · subst hc
        simp only [if_pos rfl]
        cases hfe : fits [] with
        | true => simpa using ih []
        | false => simpa [hardBreak, hfe] using ih []
      · have hcand : fits (cur ++ ' ' :: ([] : List Char)) = false := hf _ (by simp)
        simp only [if_neg hc, hcand, Bool.false_eq_true, if_false]
        cases hfe : fits [] with
        | true => simp [hfe, hc, ih []]
        | false => simp [hfe, hc, hardBreak, ih []]
    · -- nonempty word: it never fits, so it is hard-broken into single chars
      obtain ⟨c, w2, rfl⟩ : ∃ c w2, w = c :: w2 := by
        cases w with
        | nil => exact absurd rfl hw
        | cons c w2 => exact ⟨c, w2, rfl⟩
      have hwfit : fits (c :: w2) = false := hf _ (by simp)
      have hcandfit : fits (if cur = [] then c :: w2 else cur ++ ' ' :: c :: w2) = false := by
        split_ifs with hc
        · exact hwfit
        · exact hf _ (by simp)
      have hb : hardBreak fits (c :: w2) [] = hardBreak fits w2 [c] := by
        have hfc : fits (([] : List Char) ++ [c]) = false := hf _ (by simp)
        conv_lhs => rw [hardBreak]
        simp [hfc]
      have hsnd : (hardBreak fits w2 [c]).2 ≠ [] :=
        hardBreak_snd_ne_nil fits w2 [c] (by simp)
      have hspec := hardBreak_all_reject fits hf w2 [c] (by simp)
      have hkey : (hardBreak fits w2 [c]).1 ++
          ([(hardBreak fits w2 [c]).2] ++ ws.flatten.map (fun c => [c])) =
          ((c :: w2).map (fun c => [c])) ++ ws.flatten.map (fun c => [c]) := by
        rw [← List.append_assoc, hspec, List.map_cons]
      simp only [hcandfit, Bool.false_eq_true, if_false, hwfit, hb]
      rw [ih ((hardBreak fits w2 [c]).2), if_neg hsnd, List.flatten_cons, List.map_append, hkey]

/-- C8: the claim says `max_width_px <= 0` is "treated as 1".  The code
applies no such normalization: with a width oracle assigning 0.5 px to a
single character (possible at tiny font sizes), wrapping `"ab"` with limit
`0` hard-breaks into two lines, while limit `1` keeps one line.  The claim,
as stated, is false. -/
theorem wrap_limit_zero_differs_from_limit_one :
    wrapTextToLines halfPxWidth ['a', 'b'] 0 ≠ wrapTextToLines halfPxWidth ['a', 'b'] 1 :=
  of_decide_eq_true (by with_unfolding_all rfl)

/-- C8 (amended): `wrap_text_to_lines` is total (never raises) and uses a
non-positive `max_width_px` as-is: whenever every nonempty string measures a
positive width, no candidate ever fits, so each raw line is hard-broken into
one line per non-space character (tabs first expanded to spaces, empty raw
lines giving one empty line).  This coincides with limit `1` only when no
string's width lies in `(max_width_px, 1]`. -/
theorem wrap_nonpositive_limit_hard_breaks (widthOf : List Char → ℚ)
    (text : List Char) (maxW : ℤ)
    (hpos : ∀ s : List Char, s ≠ [] → 0 < widthOf s) (hmax : maxW ≤ 0) :
    wrapTextToLines widthOf text maxW =
      ((splitOnChar '\n' text).map fun raw =>
        if raw = [] then [[]]
        else ((expandTabs raw).filter (fun c => decide (c ≠ ' '))).map (fun c => [c])).flatten := by
  unfold wrapTextToLines
  congr 1
  apply List.map_congr_left
  intro raw _
  unfold wrapOneLine
  by_cases hraw : raw = []
  · simp [hraw]
  · rw [if_neg hraw, if_neg hraw]
    have hf : ∀ s : List Char, s ≠ [] → (decide (widthOf s ≤ (maxW : ℚ))) = false := by
      intro s hs
      have h1 : (maxW : ℚ) ≤ 0 := by exact_mod_cast hmax
      have h2 := hpos s hs
      simp only [decide_eq_false_iff_not]
      intro hle
      linarith
    rw [wrapWords_all_reject _ hf, flatten_splitOnChar]
    simp

/-- Witness for C8's amended theorem at the oracle `halfPxWidth`, text
`"ab c"` and limit `0`. -/
theorem wrap_nonpositive_limit_hard_breaks_witness :
    (∀ s : List Char, s ≠ [] → 0 < halfPxWidth s) ∧ ((0 : ℤ) ≤ 0) ∧
      wrapTextToLines halfPxWidth ['a', 'b', ' ', 'c'] 0 =
        ((splitOnChar '\n' ['a', 'b', ' ', 'c']).map fun raw =>
          if raw = [] then [[]]
          else ((expandTabs raw).filter (fun c => decide (c ≠ ' '))).map (fun c => [c])).flatten :=
  ⟨halfPxWidth_pos, le_refl 0,
    wrap_nonpositive_limit_hard_breaks halfPxWidth ['a', 'b', ' ', 'c'] 0 halfPxWidth_pos
      (le_refl 0)⟩

/-! ## Word typesetter (`document_pipeline/layout_generation.py`, `layout_words`
and its inner `_fix_vertical_overlaps`)

Font-derived quantities (`space_px`, `leading_px`, `base_line_h_px`, the
padded origin) are rational parameters.  Word coordinates are rounded to
integers exactly as the source's `int(round(.))`. -/

/-- An input word token `{'content': ..., 'bbox_size': [w, h]}`. -/
structure WordIn where
  content : List Char
  w : ℤ
  h : ℤ
deriving DecidableEq

/-- A placed word: content, preserved `bbox_size` and `bbox = [x1,y1,x2,y2]`. -/
structure PlacedWord where
  content : List Char
  w : ℤ
  h : ℤ
  x1 : ℤ
  y1 : ℤ
  x2 : ℤ
  y2 : ℤ
deriving DecidableEq

/-- The placement loop of `layout_words`: cursor `(cx, cy)` plus the running
`current_line_h` (`clh`), grouping placed words into logical lines separated
by explicit `"\n"` tokens (the Python `line_word_indices`); returns the
current line and the following lines.  `current_line_h` is updated faithfully
but — exactly as in the source — never affects an emitted coordinate, since
`_new_line` ignores its argument and always advances by `leading_px`. -/
def placeWords (left spacePx leadingPx baseLineH : ℚ) :
    List WordIn → ℚ → ℚ → ℚ → List PlacedWord × List (List PlacedWord)
  | [], _, _, _ => ([], [])
  | w :: ws, cx, cy, clh =>
    if w.content = ['\n'] then
      match placeWords left spacePx leadingPx baseLineH ws left (cy + leadingPx) baseLineH with
      | (line, rest) => ([], line :: rest)
    else
      match placeWords left spacePx leadingPx baseLineH ws (cx + w.w + spacePx) cy
          (max clh (w.h : ℚ)) with
      | (line, rest) =>
        (⟨w.content, w.w, w.h, pyRound cx, pyRound cy,
          pyRound (cx + (w.w : ℚ)), pyRound (cy + (w.h : ℚ))⟩ :: line, rest)

/-- Python `max(...)` over a nonempty list of ints (`0` backstop unused). -/
def listMax : List ℤ → ℤ
  | [] => 0
  | x :: xs => xs.foldl max x

/-- Python `min(...)` over a nonempty list of ints (`0` backstop unused). -/
def listMin : List ℤ → ℤ
  | [] => 0
  | x :: xs => xs.foldl min x

/-- `_fix_vertical_overlaps`: clamp an upper-line word's bottom to the
boundary, then restore non-negative height. -/
def clampBottom (c : ℤ) (pw : PlacedWord) : PlacedWord :=
  if pw.y2 > c then { pw with y2 := if c < pw.y1 then pw.y1 else c } else pw

/-- `_fix_vertical_overlaps`: clamp a lower-line word's top to the boundary,
then restore non-negative height. -/
def clampTop (c : ℤ) (pw : PlacedWord) : PlacedWord :=
  if pw.y1 < c then { pw with y1 := if c > pw.y2 then pw.y2 else c } else pw

/-- The shared boundary of `_fix_vertical_overlaps`: harmonic mean of the
upper line's max bottom and the lower line's min top (with the `denom == 0`
guard), rounded. -/
def fixBoundary (ub lt : ℤ) : ℤ :=
  pyRound (if ((ub : ℚ) + (lt : ℚ)) ≠ 0 then 2 * (ub : ℚ) * (lt : ℚ) / ((ub : ℚ) + (lt : ℚ)) else 0)

/-- One iteration of the `_fix_vertical_overlaps` loop on an adjacent line
pair: skip if either line is empty or there is no overlap, otherwise clamp
both lines to the rounded harmonic-mean boundary. -/
def fixPair (upper lower : List PlacedWord) : List PlacedWord × List PlacedWord :=
  if upper = [] ∨ lower = [] then (upper, lower)
  else if listMax (upper.map fun p => p.y2) ≤ listMin (lower.map fun p => p.y1) then
    (upper, lower)
  else
    (upper.map (clampBottom (fixBoundary (listMax (upper.map fun p => p.y2))
        (listMin (lower.map fun p => p.y1)))),
     lower.map (clampTop (fixBoundary (listMax (upper.map fun p => p.y2))
        (listMin (lower.map fun p => p.y1)))))

/-- The `for i in range(len(lines) - 1)` loop of `_fix_vertical_overlaps`,
threading the (mutated) lower line of each pair into the next pair. -/
def fixVOGo (cur : List PlacedWord) : List (List PlacedWord) → List (List PlacedWord)
  | [] => [cur]
  | nxt :: rest =>
    match fixPair cur nxt with
    | (a, b) => a :: fixVOGo b rest

/-- `_fix_vertical_overlaps` over the whole logical-line list. -/
def fixVerticalOverlaps : List (List PlacedWord) → List (List PlacedWord)
  | [] => []
  | l :: ls => fixVOGo l ls

/-- The logical lines produced by `layout_words` for a text block: cursor
starts at the padded top-left of `block_bbox = [bx1, by1, bx2, by2]`, greedy
placement, then the overlap-resolver pass.  `bx2`/`by2` enter the source only
through the padded `right`/`bottom` edges, which are computed and then never
read — no width test is performed during placement. -/
def layoutWordsLines (paddingPx spacePx leadingPx baseLineH : ℚ)
    (bx1 by1 bx2 by2 : ℤ) (words : List WordIn) : List (List PlacedWord) :=
  match placeWords ((bx1 : ℚ) + paddingPx) spacePx leadingPx baseLineH words
      ((bx1 : ℚ) + paddingPx) ((by1 : ℚ) + paddingPx) baseLineH with
  | (line, rest) => fixVerticalOverlaps (line :: rest)

/-- `layout_words`: `None` for an empty token list, otherwise the flat
`out_words` list (the logical lines of `layoutWordsLines`, flattened,
which is the order the Python code appends to `out_words`). -/
def layoutWords (paddingPx spacePx leadingPx baseLineH : ℚ)
    (bx1 by1 bx2 by2 : ℤ) (words : List WordIn) : Option (List PlacedWord) :=
  if words = [] then none
  else some (layoutWordsLines paddingPx spacePx leadingPx baseLineH bx1 by1 bx2 by2 words).flatten

theorem clampBottom_content (c : ℤ) (pw : PlacedWord) :
    (clampBottom c pw).content = pw.content := by
  unfold clampBottom
  split_ifs <;> rfl

theorem clampTop_content (c : ℤ) (pw : PlacedWord) :
    (clampTop c pw).content = pw.content := by
  unfold clampTop
  split_ifs <;> rfl

theorem fixPair_fst_contents (u l : List PlacedWord) :
    ((fixPair u l).1).map (fun pw => pw.content) = u.map (fun pw => pw.content) := by
  unfold fixPair
  split_ifs <;> simp [List.map_map, Function.comp_def, clampBottom_content]

theorem fixPair_snd_contents (u l : List PlacedWord) :
    ((fixPair u l).2).map (fun pw => pw.content) = l.map (fun pw => pw.content) := by
  unfold fixPair
  split_ifs <;> simp [List.map_map, Function.comp_def, clampTop_content]

theorem fixVOGo_contents :
    ∀ (ls : List (List PlacedWord)) (cur : List PlacedWord),
      (fixVOGo cur ls).map (List.map fun pw => pw.content) =
        cur.map (fun pw => pw.content) :: ls.map (List.map fun pw => pw.content) := by
  intro ls
  induction ls with
  | nil => intro cur; simp [fixVOGo]
  | cons nxt rest ih =>
    intro cur
    unfold fixVOGo
    rcases hp : fixPair cur nxt with ⟨a, b⟩
    have ha : a.map (fun pw => pw.content) = cur.map (fun pw => pw.content) := by
      have := fixPair_fst_contents cur nxt
      rw [hp] at this
      exact this
    have hb : b.map (fun pw => pw.content) = nxt.map (fun pw => pw.content) := by
      have := fixPair_snd_contents cur nxt
      rw [hp] at this
      exact this
    simp only [List.map_cons, ih b, ha, hb]

theorem fixVerticalOverlaps_contents (ls : List (List PlacedWord)) :
    (fixVerticalOverlaps ls).map (List.map fun pw => pw.content) =
      ls.map (List.map fun pw => pw.content) := by
  cases ls with
  | nil => rfl
  | cons l rest => exact fixVOGo_contents rest l

theorem placeWords_contents (left spacePx leadingPx baseLineH : ℚ) :
    ∀ (ws : List WordIn) (cx cy clh : ℚ),
      (((placeWords left spacePx leadingPx baseLineH ws cx cy clh).1 ::
          (placeWords left spacePx leadingPx baseLineH ws cx cy clh).2).flatten).map
          (fun pw => pw.content) =
        (ws.filter fun w => decide (w.content ≠ ['\n'])).map (fun w => w.content) := by
  intro ws
  induction ws with
  | nil => intro cx cy clh; simp [placeWords]
  | cons w ws ih =>
    intro cx cy clh
    unfold placeWords
    by_cases hw : w.content = ['\n']
    · rw [if_pos hw]
      rcases hp : placeWords left spacePx leadingPx baseLineH ws left (cy + leadingPx) baseLineH
        with ⟨line, rest⟩
      have := ih left (cy + leadingPx) baseLineH
      rw [hp] at this
      simpa [List.filter_cons, hw] using this
    · rw [if_neg hw]
      rcases hp : placeWords left spacePx leadingPx baseLineH ws (cx + w.w + spacePx) cy
          (max clh (w.h : ℚ)) with ⟨line, rest⟩
      have := ih (cx + w.w + spacePx) cy (max clh (w.h : ℚ))
      rw [hp] at this
      simpa [List.filter_cons, hw] using this

/-- C7 (counterexample): the spec says the explicit-newline marker "appears
in the typeset output word list carrying a bbox collapsed to a point".  On a
concrete block the marker is absent from the output: `layout_words` handles
`"\n"` with `continue`, never appending it to `out_words`. -/
theorem layout_words_marker_not_in_output :
    layoutWords 0 2 4 10 0 0 100 100 [⟨['a'], 5, 10⟩, ⟨['\n'], 0, 0⟩, ⟨['b'], 5, 10⟩] =
      some [⟨['a'], 5, 10, 0, 0, 5, 6⟩, ⟨['b'], 5, 10, 0, 6, 5, 14⟩] ∧
    ((layoutWords 0 2 4 10 0 0 100 100
        [⟨['a'], 5, 10⟩, ⟨['\n'], 0, 0⟩, ⟨['b'], 5, 10⟩]).getD []).filter
        (fun pw => decide (pw.content = ['\n'])) = [] :=
  of_decide_eq_true (by with_unfolding_all rfl)

/-- C7 (amended): newline markers are consumed by the typesetter — they force
the line break but are omitted from the output word list, whose entries are
exactly the non-newline tokens in input order (no zero-size marker bbox is
recorded). -/
theorem layout_words_consumes_markers (paddingPx spacePx leadingPx baseLineH : ℚ)
    (bx1 by1 bx2 by2 : ℤ) (words : List WordIn) :
    ((layoutWordsLines paddingPx spacePx leadingPx baseLineH bx1 by1 bx2 by2 words).flatten).map
        (fun pw => pw.content) =
      (words.filter fun w => decide (w.content ≠ ['\n'])).map (fun w => w.content) := by
  unfold layoutWordsLines
  rcases hp : placeWords ((bx1 : ℚ) + paddingPx) spacePx leadingPx baseLineH words
      ((bx1 : ℚ) + paddingPx) ((by1 : ℚ) + paddingPx) baseLineH with ⟨line, rest⟩
  have hflat := fixVerticalOverlaps_contents (line :: rest)
  have hplace := placeWords_contents ((bx1 : ℚ) + paddingPx) spacePx leadingPx baseLineH words
    ((bx1 : ℚ) + paddingPx) ((by1 : ℚ) + paddingPx) baseLineH
  rw [hp] at hplace
  calc ((fixVerticalOverlaps (line :: rest)).flatten).map (fun pw => pw.content)
      = ((fixVerticalOverlaps (line :: rest)).map (List.map fun pw => pw.content)).flatten := by
        rw [List.map_flatten]
    _ = ((line :: rest).map (List.map fun pw => pw.content)).flatten := by rw [hflat]
    _ = ((line :: rest).flatten).map (fun pw => pw.content) := by rw [List.map_flatten]
    _ = (words.filter fun w => decide (w.content ≠ ['\n'])).map (fun w => w.content) := hplace

/-- C1: `layout_words` performs no width-based wrapping, contradicting both
the claim and the function's own docstring ("wraps by width").  With block
bbox `[0, 0, 100, 50]`, zero padding, space width 2 and two 60 px-wide
tokens, the second token is placed at `x ∈ [62, 122]`: its left edge is not
at the line start (`62 ≠ 0`) and its right edge exceeds the padded right
edge (`122 > 100`), yet no wrap happened. -/
theorem layout_words_no_width_wrap :
    layoutWords 0 2 12 10 0 0 100 50 [⟨['a', 'a'], 60, 10⟩, ⟨['b', 'b'], 60, 10⟩] =
      some [⟨['a', 'a'], 60, 10, 0, 0, 60, 10⟩, ⟨['b', 'b'], 60, 10, 62, 0, 122, 10⟩] ∧
    (62 : ℤ) ≠ 0 ∧ (100 : ℤ) < 122 :=
  of_decide_eq_true (by with_unfolding_all rfl)

theorem foldl_max_const {c : ℤ} : ∀ xs : List ℤ, (∀ x ∈ xs, x = c) → xs.foldl max c = c := by
  intro xs
  induction xs with
  | nil => intro _; rfl
  | cons x xs ih =>
    intro h
    have hx : x = c := h x (by simp)
    simp only [List.foldl_cons, hx, max_self]
    exact ih fun y hy => h y (by simp [hy])

theorem listMax_const {l : List ℤ} {c : ℤ} (h : ∀ x ∈ l, x = c) (hne : l ≠ []) :
    listMax l = c := by
  cases l with
  | nil => exact absurd rfl hne
  | cons x xs =>
    have hx : x = c := h x (by simp)
    unfold listMax
    rw [hx]
    exact foldl_max_const xs fun y hy => h y (by simp [hy])

theorem foldl_min_const {c : ℤ} : ∀ xs : List ℤ, (∀ x ∈ xs, x = c) → xs.foldl min c = c := by
  intro xs
  induction xs with
  | nil => intro _; rfl
  | cons x xs ih =>
    intro h
    have hx : x = c := h x (by simp)
    simp only [List.foldl_cons, hx, min_self]
    exact ih fun y hy => h y (by simp [hy])

theorem listMin_const {l : List ℤ} {c : ℤ} (h : ∀ x ∈ l, x = c) (hne : l ≠ []) :
    listMin l = c := by
  cases l with
  | nil => exact absurd rfl hne
  | cons x xs =>
    have hx : x = c := h x (by simp)
    unfold listMin
    rw [hx]
    exact foldl_min_const xs fun y hy => h y (by simp [hy])

theorem clampBottom_y1 (c : ℤ) (pw : PlacedWord) : (clampBottom c pw).y1 = pw.y1 := by
  unfold clampBottom
  split_ifs <;> rfl

theorem clampBottom_unif {c t b : ℤ} (pw : PlacedWord) (h1 : pw.y1 = t) (h2 : pw.y2 = b)
    (ht : t ≤ c) : (clampBottom c pw).y1 = t ∧ (clampBottom c pw).y2 = min b c := by
  unfold clampBottom
  split_ifs with hgt hlt
  · omega
  · constructor
    · exact h1
    · simp only
      omega
  · exact ⟨h1, by omega⟩

theorem clampTop_unif {c t b : ℤ} (pw : PlacedWord) (h1 : pw.y1 = t) (h2 : pw.y2 = b)
    (hc : c ≤ b) : (clampTop c pw).y1 = max t c ∧ (clampTop c pw).y2 = b := by
  unfold clampTop
  split_ifs with hlt hgt
  · omega
  · constructor
    · simp only
      omega
    · exact h2
  · exact ⟨by omega, h2⟩

theorem fixBoundary_bounds {ub lt : ℤ} (h0 : 0 ≤ lt) (hlt : lt < ub) :
    lt ≤ fixBoundary ub lt ∧ fixBoundary ub lt ≤ ub := by
  have hq0 : (0 : ℚ) ≤ (lt : ℚ) := by exact_mod_cast h0
  have hqlt : (lt : ℚ) < (ub : ℚ) := by exact_mod_cast hlt
  have hden : (0 : ℚ) < (ub : ℚ) + (lt : ℚ) := by linarith
  have hne : ((ub : ℚ) + (lt : ℚ)) ≠ 0 := ne_of_gt hden
  unfold fixBoundary
  rw [if_pos hne]
  constructor
  · apply int_le_pyRound
    rw [le_div_iff₀ hden]
    nlinarith
  · apply pyRound_le_int
    rw [div_le_iff₀ hden]
    nlinarith

theorem fixBoundary_mono {ub lt ub2 lt2 : ℤ} (h0 : 0 ≤ lt) (h1 : lt < ub)
    (h2 : lt ≤ lt2) (h3 : ub ≤ ub2) (h4 : lt2 < ub2) :
    fixBoundary ub lt ≤ fixBoundary ub2 lt2 := by
  have q0 : (0 : ℚ) ≤ (lt : ℚ) := by exact_mod_cast h0
  have q1 : (lt : ℚ) < (ub : ℚ) := by exact_mod_cast h1
  have q2 : (lt : ℚ) ≤ (lt2 : ℚ) := by exact_mod_cast h2
  have q3 : (ub : ℚ) ≤ (ub2 : ℚ) := by exact_mod_cast h3
  have q4 : (lt2 : ℚ) < (ub2 : ℚ) := by exact_mod_cast h4
  have hA : (0 : ℚ) < (ub : ℚ) + (lt : ℚ) := by linarith
  have hB : (0 : ℚ) < (ub2 : ℚ) + (lt2 : ℚ) := by linarith
  unfold fixBoundary
  rw [if_pos (ne_of_gt hA), if_pos (ne_of_gt hB)]
  apply pyRound_mono
  rw [div_le_div_iff₀ hA hB]
  have h5 : (0 : ℚ) ≤ (lt : ℚ) * (lt2 : ℚ) * ((ub2 : ℚ) - (ub : ℚ)) := by
    apply mul_nonneg (mul_nonneg q0 (by linarith)) (by linarith)
  have h6 : (0 : ℚ) ≤ (ub : ℚ) * (ub2 : ℚ) * ((lt2 : ℚ) - (lt : ℚ)) := by
    apply mul_nonneg (mul_nonneg (by linarith) (by linarith)) (by linarith)
  nlinarith [h5, h6]

theorem fixPair_fst_y1 (u l : List PlacedWord) :
    ((fixPair u l).1).map (fun p => p.y1) = u.map (fun p => p.y1) := by
  unfold fixPair
  split_ifs <;> simp [List.map_map, Function.comp_def, clampBottom_y1]

theorem fixVOGo_head :
    ∀ (rest : List (List PlacedWord)) (cur : List PlacedWord),
      ∃ h t, fixVOGo cur rest = h :: t ∧
        h.map (fun p => p.y1) = cur.map (fun p => p.y1) := by
  intro rest cur
  cases rest with
  | nil => exact ⟨cur, [], rfl, rfl⟩
  | cons nxt rest2 =>
    unfold fixVOGo
    rcases hp : fixPair cur nxt with ⟨a, b⟩
    refine ⟨a, fixVOGo b rest2, rfl, ?_⟩
    have := fixPair_fst_y1 cur nxt
    rw [hp] at this
    exact this

/-- The per-line vertical placement produced by `layout_words`: line `k`
starts at cursor `cy + k * leading_px`, and every word in it is stamped with
`y1 = round(cursor)` and `y2 = round(cursor + h)` for the common height `h`. -/
def linesFrom (hgt : ℤ) (leadingPx : ℚ) : ℚ → List (List PlacedWord) → Prop
  | _, [] => True
  | cy, line :: rest =>
    (∀ pw ∈ line, pw.y1 = pyRound cy ∧ pw.y2 = pyRound (cy + (hgt : ℚ))) ∧
    linesFrom hgt leadingPx (cy + leadingPx) rest

theorem placeWords_linesFrom (left spacePx leadingPx baseLineH : ℚ) (hgt : ℤ) :
    ∀ (ws : List WordIn) (cx cy clh : ℚ),
      (∀ w ∈ ws, w.content ≠ ['\n'] → w.h = hgt) →
      linesFrom hgt leadingPx cy
        ((placeWords left spacePx leadingPx baseLineH ws cx cy clh).1 ::
          (placeWords left spacePx leadingPx baseLineH ws cx cy clh).2) := by
  intro ws
  induction ws with
  | nil =>
    intro cx cy clh _
    exact ⟨by simp [placeWords], trivial⟩
  | cons w ws ih =>
    intro cx cy clh hw
    unfold placeWords
    by_cases hnl : w.content = ['\n']
    · rw [if_pos hnl]
      rcases hp : placeWords left spacePx leadingPx baseLineH ws left (cy + leadingPx) baseLineH
        with ⟨line, rest⟩
      have := ih left (cy + leadingPx) baseLineH fun v hv => hw v (by simp [hv])
      rw [hp] at this
      exact ⟨by simp, this⟩
    · rw [if_neg hnl]
      rcases hp : placeWords left spacePx leadingPx baseLineH ws (cx + w.w + spacePx) cy
          (max clh (w.h : ℚ)) with ⟨line, rest⟩
      have hrec := ih (cx + w.w + spacePx) cy (max clh (w.h : ℚ)) fun v hv => hw v (by simp [hv])
      rw [hp] at hrec
      refine ⟨?_, hrec.2⟩
      intro pw hpw
      rcases List.mem_cons.mp hpw with hpw | hpw
      · subst hpw
        refine ⟨rfl, ?_⟩
        have : w.h = hgt := hw w (by simp) hnl
        simp [this]
      · exact hrec.1 pw hpw

/-- The guarantee the resolver must establish for an adjacent line pair:
if both logical lines are non-empty, the upper line's maximum bottom edge
does not exceed the lower line's minimum top edge. -/
def lineOrd (a b : List PlacedWord) : Prop :=
  a ≠ [] → b ≠ [] →
    listMax (a.map fun p => p.y2) ≤ listMin (b.map fun p => p.y1)

theorem fixVOGo_ordered (hgt : ℤ) (leadingPx : ℚ) (hh : 0 ≤ hgt) (hlead : 0 ≤ leadingPx) :
    ∀ (rest : List (List PlacedWord)) (cur : List PlacedWord) (cy : ℚ) (t : ℤ),
      0 ≤ cy →
      (∀ pw ∈ cur, pw.y1 = t ∧ pw.y2 = pyRound (cy + (hgt : ℚ))) →
      0 ≤ t →
      (∀ t2 : ℤ, 0 ≤ t2 → pyRound cy ≤ t2 → t2 < pyRound (cy + (hgt : ℚ)) →
        t ≤ fixBoundary (pyRound (cy + (hgt : ℚ))) t2) →
      linesFrom hgt leadingPx (cy + leadingPx) rest →
      List.Chain' lineOrd (fixVOGo cur rest) := by
  intro rest
  induction rest with
  | nil =>
    intro cur cy t _ _ _ _ _
    simp [fixVOGo]
  | cons nxt rest2 ih =>
    intro cur cy t hcy hcur ht0 hInv hlf
    have hn : ∀ pw ∈ nxt, pw.y1 = pyRound (cy + leadingPx) ∧
        pw.y2 = pyRound (cy + leadingPx + (hgt : ℚ)) := hlf.1
    have hrest : linesFrom hgt leadingPx (cy + leadingPx + leadingPx) rest2 := hlf.2
    have hcy1 : 0 ≤ cy + leadingPx := by linarith
    have ht10 : 0 ≤ pyRound (cy + leadingPx) := pyRound_nonneg hcy1
    have hgq : (0 : ℚ) ≤ (hgt : ℚ) := by exact_mod_cast hh
    have hb0b1 : pyRound (cy + (hgt : ℚ)) ≤ pyRound (cy + leadingPx + (hgt : ℚ)) :=
      pyRound_mono (by linarith)
    have htb : pyRound cy ≤ pyRound (cy + leadingPx) := pyRound_mono (by linarith)
    have hinit : ∀ t2 : ℤ, 0 ≤ t2 → pyRound (cy + leadingPx) ≤ t2 →
        t2 < pyRound (cy + leadingPx + (hgt : ℚ)) →
        pyRound (cy + leadingPx) ≤ fixBoundary (pyRound (cy + leadingPx + (hgt : ℚ))) t2 := by
      intro t2 h1 h2 h3
      exact le_trans h2 (fixBoundary_bounds h1 h3).1
    unfold fixVOGo
    by_cases hemp : cur = [] ∨ nxt = []
    · have hfp : fixPair cur nxt = (cur, nxt) := by
        unfold fixPair
        rw [if_pos hemp]
      rw [hfp]
      show List.Chain' lineOrd (cur :: fixVOGo nxt rest2)
      obtain ⟨hd, tl, hfix, hmap⟩ := fixVOGo_head rest2 nxt
      rw [hfix, List.chain'_cons]
      constructor
      · intro hc hhne
        rcases hemp with h1 | h1
        · exact absurd h1 hc
        · have : hd.map (fun p => p.y1) = [] := by rw [hmap, h1]; rfl
          exact absurd (List.map_eq_nil_iff.mp this) hhne
      · rw [← hfix]
        exact ih nxt (cy + leadingPx) (pyRound (cy + leadingPx)) hcy1 hn ht10 hinit hrest
    · push_neg at hemp
      obtain ⟨hcne, hnne⟩ := hemp
      have hmax : listMax (cur.map fun p => p.y2) = pyRound (cy + (hgt : ℚ)) := by
        apply listMax_const
        · intro x hx
          obtain ⟨pw, hpw, rfl⟩ := List.mem_map.mp hx
          exact (hcur pw hpw).2
        · simpa using hcne
      have hmin : listMin (nxt.map fun p => p.y1) = pyRound (cy + leadingPx) := by
        apply listMin_const
        · intro x hx
          obtain ⟨pw, hpw, rfl⟩ := List.mem_map.mp hx
          exact (hn pw hpw).1
        · simpa using hnne
      by_cases hov : pyRound (cy + (hgt : ℚ)) ≤ pyRound (cy + leadingPx)
      · -- no overlap between `cur` and `nxt`: the pair is left unchanged
        have hfp : fixPair cur nxt = (cur, nxt) := by
          unfold fixPair
          rw [if_neg (by push_neg; exact ⟨hcne, hnne⟩), hmax, hmin, if_pos hov]
        rw [hfp]
        show List.Chain' lineOrd (cur :: fixVOGo nxt rest2)
        obtain ⟨hd, tl, hfix, hmap⟩ := fixVOGo_head rest2 nxt
        rw [hfix, List.chain'_cons]
        constructor
        · intro _ hhne
          have hminh : listMin (hd.map fun p => p.y1) = pyRound (cy + leadingPx) := by
            rw [hmap, hmin]
          rw [hmax, hminh]
          exact hov
        · rw [← hfix]
          exact ih nxt (cy + leadingPx) (pyRound (cy + leadingPx)) hcy1 hn ht10 hinit hrest
      · -- overlap: both lines are clamped to the rounded harmonic-mean boundary
        push_neg at hov
        have hcb := fixBoundary_bounds ht10 hov
        have htc : t ≤ fixBoundary (pyRound (cy + (hgt : ℚ))) (pyRound (cy + leadingPx)) :=
          hInv (pyRound (cy + leadingPx)) ht10 htb hov
        have hcb1 : fixBoundary (pyRound (cy + (hgt : ℚ))) (pyRound (cy + leadingPx)) ≤
            pyRound (cy + leadingPx + (hgt : ℚ)) := le_trans hcb.2 hb0b1
        have hfp : fixPair cur nxt =
            (cur.map (clampBottom (fixBoundary (pyRound (cy + (hgt : ℚ)))
                (pyRound (cy + leadingPx)))),
             nxt.map (clampTop (fixBoundary (pyRound (cy + (hgt : ℚ)))
                (pyRound (cy + leadingPx))))) := by
          unfold fixPair
          rw [if_neg (by push_neg; exact ⟨hcne, hnne⟩), hmax, hmin, if_neg (not_le.mpr hov)]
        rw [hfp]
        show List.Chain' lineOrd
          ((cur.map (clampBottom (fixBoundary (pyRound (cy + (hgt : ℚ)))
              (pyRound (cy + leadingPx))))) ::
            fixVOGo (nxt.map (clampTop (fixBoundary (pyRound (cy + (hgt : ℚ)))
              (pyRound (cy + leadingPx))))) rest2)
        have ha : ∀ pw ∈ cur.map (clampBottom (fixBoundary (pyRound (cy + (hgt : ℚ)))
            (pyRound (cy + leadingPx)))), pw.y1 = t ∧
            pw.y2 = fixBoundary (pyRound (cy + (hgt : ℚ))) (pyRound (cy + leadingPx)) := by
          intro pw hpw
          obtain ⟨q, hq, rfl⟩ := List.mem_map.mp hpw
          obtain ⟨hq1, hq2⟩ := hcur q hq
          obtain ⟨e1, e2⟩ := clampBottom_unif q hq1 hq2 htc
          refine ⟨e1, ?_⟩
          rw [e2]
          omega
        have hb : ∀ pw ∈ nxt.map (clampTop (fixBoundary (pyRound (cy + (hgt : ℚ)))
            (pyRound (cy + leadingPx)))),
            pw.y1 = fixBoundary (pyRound (cy + (hgt : ℚ))) (pyRound (cy + leadingPx)) ∧
            pw.y2 = pyRound (cy + leadingPx + (hgt : ℚ)) := by
          intro pw hpw
          obtain ⟨q, hq, rfl⟩ := List.mem_map.mp hpw
          obtain ⟨hq1, hq2⟩ := hn q hq
          obtain ⟨e1, e2⟩ := clampTop_unif q hq1 hq2 hcb1
          refine ⟨?_, e2⟩
          rw [e1]
          omega
        obtain ⟨hd, tl, hfix, hmap⟩ := fixVOGo_head rest2
          (nxt.map (clampTop (fixBoundary (pyRound (cy + (hgt : ℚ))) (pyRound (cy + leadingPx)))))
        rw [hfix, List.chain'_cons]
        constructor
        · intro hane hhne
          have hmaxa : listMax ((cur.map (clampBottom (fixBoundary (pyRound (cy + (hgt : ℚ)))
              (pyRound (cy + leadingPx))))).map fun p => p.y2) =
              fixBoundary (pyRound (cy + (hgt : ℚ))) (pyRound (cy + leadingPx)) := by
            apply listMax_const
            · intro x hx
              obtain ⟨pw, hpw, rfl⟩ := List.mem_map.mp hx
              exact (ha pw hpw).2
            · simpa using hane
          have hminh : listMin (hd.map fun p => p.y1) =
              fixBoundary (pyRound (cy + (hgt : ℚ))) (pyRound (cy + leadingPx)) := by
            rw [hmap]
            apply listMin_const
            · intro x hx
              obtain ⟨pw, hpw, rfl⟩ := List.mem_map.mp hx
              exact (hb pw hpw).1
            · intro hcon
              exact hhne (by
                have : hd.map (fun p => p.y1) = [] := by rw [hmap]; exact hcon
                exact List.map_eq_nil_iff.mp this)
          rw [hmaxa, hminh]
        · rw [← hfix]
          apply ih _ (cy + leadingPx)
            (fixBoundary (pyRound (cy + (hgt : ℚ))) (pyRound (cy + leadingPx)))
            hcy1 hb (le_trans ht10 hcb.1) ?_ hrest
          intro t2 h1 h2 h3
          exact fixBoundary_mono ht10 hov h2 hb0b1 h3

/-- C2: after `_fix_vertical_overlaps` runs on a typeset block, every pair of
index-adjacent non-empty logical lines satisfies
`max(upper.bottom) <= min(lower.top)`.  Hypotheses reflect how blocks are
typeset in this pipeline: all non-newline tokens of a block share one
measured height (`measure_bbox_size_for_one_word` depends only on the block's
font and size), the style leading is non-negative, and the padded top of the
committed block bbox is non-negative (blocks are placed at or below the top
margin). -/
theorem overlap_resolver_orders_adjacent_lines
    (paddingPx spacePx leadingPx baseLineH : ℚ) (bx1 by1 bx2 by2 : ℤ)
    (words : List WordIn) (hgt : ℤ)
    (hh : 0 ≤ hgt)
    (hw : ∀ w ∈ words, w.content ≠ ['\n'] → w.h = hgt)
    (hlead : 0 ≤ leadingPx)
    (htop : 0 ≤ (by1 : ℚ) + paddingPx) :
    List.Chain' lineOrd
      (layoutWordsLines paddingPx spacePx leadingPx baseLineH bx1 by1 bx2 by2 words) := by
  unfold layoutWordsLines
  rcases hp : placeWords ((bx1 : ℚ) + paddingPx) spacePx leadingPx baseLineH words
      ((bx1 : ℚ) + paddingPx) ((by1 : ℚ) + paddingPx) baseLineH with ⟨line, rest⟩
  have hlf := placeWords_linesFrom ((bx1 : ℚ) + paddingPx) spacePx leadingPx baseLineH hgt words
    ((bx1 : ℚ) + paddingPx) ((by1 : ℚ) + paddingPx) baseLineH hw
  rw [hp] at hlf
  show List.Chain' lineOrd (fixVOGo line rest)
  refine fixVOGo_ordered hgt leadingPx hh hlead rest line ((by1 : ℚ) + paddingPx)
    (pyRound ((by1 : ℚ) + paddingPx)) htop hlf.1 (pyRound_nonneg htop) ?_ hlf.2
  intro t2 h1 h2 h3
  exact le_trans h2 (fixBoundary_bounds h1 h3).1

/-- Witness for C2's theorem: a block with two 5×10 words split by an
explicit newline, leading 4 px — the raw lines overlap (10 > 4) and the
resolver separates them at the rounded harmonic-mean boundary 6. -/
theorem overlap_resolver_orders_adjacent_lines_witness :
    (0 : ℤ) ≤ 10 ∧
    (∀ w ∈ [(⟨['a'], 5, 10⟩ : WordIn), ⟨['\n'], 0, 0⟩, ⟨['b'], 5, 10⟩],
      w.content ≠ ['\n'] → w.h = 10) ∧
    (0 : ℚ) ≤ 4 ∧ (0 : ℚ) ≤ ((0 : ℤ) : ℚ) + 0 ∧
    List.Chain' lineOrd
      (layoutWordsLines 0 2 4 10 0 0 100 100
        [⟨['a'], 5, 10⟩, ⟨['\n'], 0, 0⟩, ⟨['b'], 5, 10⟩]) :=
  ⟨by norm_num, by decide, by norm_num, by norm_num,
    overlap_resolver_orders_adjacent_lines 0 2 4 10 0 0 100 100
      [⟨['a'], 5, 10⟩, ⟨['\n'], 0, 0⟩, ⟨['b'], 5, 10⟩] 10 (by norm_num) (by decide)
      (by norm_num) (by norm_num)⟩

/-! ## Page layout packer (`document_pipeline/layout_generation.py`,
`generate_layout`)

The geometric core: two independent column cursors, a current-column pointer,
a full-width lane for blocks wider than a column.  The per-block `content`
string and the nested `layout_words` call do not alter block bboxes, and the
final `out["page"]` record is derived data; neither is needed for the block
placement claims.  The column pointer is a `Bool` (`false` = column 0,
`true` = column 1, Python `other = 1 - col_idx` is negation). -/

/-- A block's validated `bbox_size = [w, h]`. -/
structure BlockIn where
  w : ℤ
  h : ℤ
deriving DecidableEq

/-- A placed block: absolute bbox `[x1, y1, x2, y2]` plus the lane the packer
routed it to (`none` = full-width, `some c` = column `c`). -/
structure PlacedBlock where
  x1 : ℤ
  y1 : ℤ
  x2 : ℤ
  y2 : ℤ
  col : Option Bool
deriving DecidableEq

/-- `y_col[c]`. -/
def ycol (y0 y1 : ℤ) (c : Bool) : ℤ := if c then y1 else y0

/-- `col_x[c] = [margin, margin + col_w + gutter][c]`. -/
def colX (margin colW gutter : ℤ) (c : Bool) : ℤ :=
  if c then margin + colW + gutter else margin

/-- The block loop of `generate_layout`: state `(y_col[0], y_col[1], col_idx)`.
Full-width route for `w0 > col_w` (height pre-check, then `fits` at
`max(y_col)`, then both cursors advance); columnar route tries the current
column at its own cursor, then the other column at *its* cursor, else fails.
`fits(y, h)` is `y + h <= bottom_y`. -/
def packBlocks (margin colW gutter vGap bottomY maxColH : ℤ) :
    List BlockIn → ℤ → ℤ → Bool → Except (List Char) (List PlacedBlock)
  | [], _, _, _ => .ok []
  | b :: bs, y0, y1, c =>
    if colW < b.w then
      if maxColH < b.h then .error ['h']
      else if max y0 y1 + b.h ≤ bottomY then
        Except.map
          (fun rest => ⟨margin, max y0 y1, margin + b.w, max y0 y1 + b.h, none⟩ :: rest)
          (packBlocks margin colW gutter vGap bottomY maxColH bs
            (max y0 y1 + b.h + vGap) (max y0 y1 + b.h + vGap) c)
      else .error ['f']
    else
      if maxColH < b.h then .error ['H']
      else if ycol y0 y1 c + b.h ≤ bottomY then
        Except.map
          (fun rest => ⟨colX margin colW gutter c, ycol y0 y1 c,
            colX margin colW gutter c + b.w, ycol y0 y1 c + b.h, some c⟩ :: rest)
          (packBlocks margin colW gutter vGap bottomY maxColH bs
            (if c then y0 else ycol y0 y1 c + b.h + vGap)
            (if c then ycol y0 y1 c + b.h + vGap else y1) c)
      else if ycol y0 y1 (!c) + b.h ≤ bottomY then
        Except.map
          (fun rest => ⟨colX margin colW gutter (!c), ycol y0 y1 (!c),
            colX margin colW gutter (!c) + b.w, ycol y0 y1 (!c) + b.h, some (!c)⟩ :: rest)
          (packBlocks margin colW gutter vGap bottomY maxColH bs
            (if (!c) then y0 else ycol y0 y1 (!c) + b.h + vGap)
            (if (!c) then ycol y0 y1 (!c) + b.h + vGap else y1) (!c))
      else .error ['c']

/-- `generate_layout` (geometry): page-geometry validation, then the block
loop from `y_col = [margin, margin]`, `col_idx = 0`.
`col_w = usable_w // 2` is Python floor division. -/
def generateLayout (margin gutter vGap pageW pageH : ℤ) (blocks : List BlockIn) :
    Except (List Char) (List PlacedBlock) :=
  if pageW - 2 * margin ≤ 0 then .error ['m']
  else if pageW - 2 * margin - gutter ≤ 0 then .error ['g']
  else if (pageH - margin) - margin ≤ 0 then .error ['M']
  else
    packBlocks margin (Int.fdiv (pageW - 2 * margin - gutter) 2) gutter vGap
      (pageH - margin) ((pageH - margin) - margin) blocks margin margin false

/-- Two bboxes with positive extents have disjoint interiors iff they are
separated along an axis. -/
def blocksDisjoint (p q : PlacedBlock) : Prop :=
  p.x2 ≤ q.x1 ∨ q.x2 ≤ p.x1 ∨ p.y2 ≤ q.y1 ∨ q.y2 ≤ p.y1

/-- Packer invariant, relative to current cursors: every already-placed block
sits above its lane's cursor and within its lane's x-extent. -/
def placedBounds (margin colW gutter y0 y1 : ℤ) (p : PlacedBlock) : Prop :=
  (p.col = none → y0 ≤ p.y1 ∧ y1 ≤ p.y1 ∧ p.x1 = margin) ∧
  (p.col = some false → y0 ≤ p.y1 ∧ p.x1 = margin ∧ p.x2 ≤ margin + colW) ∧
  (p.col = some true → y1 ≤ p.y1 ∧ p.x1 = margin + colW + gutter)

instance exceptDecEq {ε α : Type} [DecidableEq ε] [DecidableEq α] : DecidableEq (Except ε α)
  | .error a, .error b =>
    if h : a = b then .isTrue (by rw [h]) else .isFalse (by simp [h])
  | .error _, .ok _ => .isFalse (by simp)
  | .ok _, .error _ => .isFalse (by simp)
  | .ok a, .ok b =>
    if h : a = b then .isTrue (by rw [h]) else .isFalse (by simp [h])

theorem exceptMap_ok {ε α β : Type} {f : α → β} {e : Except ε α} {v : β}
    (h : Except.map f e = .ok v) : ∃ u, e = .ok u ∧ v = f u := by
  cases e with
  | error err => simp [Except.map] at h
  | ok u => exact ⟨u, rfl, by simpa [Except.map] using h.symm⟩

theorem placedBounds_mono {margin colW gutter y0 y1 ny0 ny1 : ℤ} (h0 : y0 ≤ ny0)
    (h1 : y1 ≤ ny1) {p : PlacedBlock} (h : placedBounds margin colW gutter ny0 ny1 p) :
    placedBounds margin colW gutter y0 y1 p := by
  obtain ⟨hn, hc0, hc1⟩ := h
  refine ⟨fun hc => ?_, fun hc => ?_, fun hc => ?_⟩
  · have := hn hc; omega
  · have := hc0 hc; omega
  · have := hc1 hc; omega

/-- The knowledge the packer has about a freshly placed block, relative to the
cursors as they stand right after placing it. -/
def headFacts (margin colW gutter ny0 ny1 : ℤ) (p : PlacedBlock) : Prop :=
  (p.col = none → p.y2 ≤ ny0 ∧ p.y2 ≤ ny1) ∧
  (p.col = some false → p.y2 ≤ ny0 ∧ p.x2 ≤ margin + colW) ∧
  (p.col = some true → p.y2 ≤ ny1 ∧ margin + colW + gutter ≤ p.x1)

theorem head_disjoint {margin colW gutter ny0 ny1 : ℤ} (hg : 0 ≤ gutter)
    {p q : PlacedBlock} (hp : headFacts margin colW gutter ny0 ny1 p)
    (hq : placedBounds margin colW gutter ny0 ny1 q) : blocksDisjoint p q := by
  obtain ⟨hfw, hc0, hc1⟩ := hp
  obtain ⟨hqn, hq0, hq1⟩ := hq
  rcases hpc : p.col with _ | pc
  · obtain ⟨h1, h2⟩ := hfw hpc
    rcases hqc : q.col with _ | qc
    · exact Or.inr (Or.inr (Or.inl (le_trans h1 (hqn hqc).1)))
    · cases qc
      · exact Or.inr (Or.inr (Or.inl (le_trans h1 (hq0 hqc).1)))
      · exact Or.inr (Or.inr (Or.inl (le_trans h2 (hq1 hqc).1)))
  · cases pc
    · obtain ⟨h1, h2⟩ := hc0 hpc
      rcases hqc : q.col with _ | qc
      · exact Or.inr (Or.inr (Or.inl (le_trans h1 (hqn hqc).1)))
      · cases qc
        · exact Or.inr (Or.inr (Or.inl (le_trans h1 (hq0 hqc).1)))
        · refine Or.inl ?_
          have := (hq1 hqc).2
          omega
    · obtain ⟨h1, h2⟩ := hc1 hpc
      rcases hqc : q.col with _ | qc
      · exact Or.inr (Or.inr (Or.inl (le_trans h1 (hqn hqc).2.1)))
      · cases qc
        · refine Or.inr (Or.inl ?_)
          have := (hq0 hqc).2.2
          omega
        · exact Or.inr (Or.inr (Or.inl (le_trans h1 (hq1 hqc).1)))

theorem step_disjoint {margin colW gutter y0 y1 ny0 ny1 : ℤ} (hg : 0 ≤ gutter)
    {p : PlacedBlock} {rest : List PlacedBlock}
    (hy0 : y0 ≤ ny0) (hy1 : y1 ≤ ny1)
    (hpb : placedBounds margin colW gutter y0 y1 p)
    (hph : headFacts margin colW gutter ny0 ny1 p)
    (hpw : rest.Pairwise blocksDisjoint)
    (hbd : ∀ q ∈ rest, placedBounds margin colW gutter ny0 ny1 q) :
    (p :: rest).Pairwise blocksDisjoint ∧
      ∀ q ∈ p :: rest, placedBounds margin colW gutter y0 y1 q := by
  constructor
  · exact List.Pairwise.cons (fun q hq => head_disjoint hg hph (hbd q hq)) hpw
  · intro q hq
    rcases List.mem_cons.mp hq with rfl | hq
    · exact hpb
    · exact placedBounds_mono hy0 hy1 (hbd q hq)

theorem packBlocks_disjoint (margin colW gutter vGap bottomY maxColH : ℤ)
    (hg : 0 ≤ gutter) (hv : 0 ≤ vGap) :
    ∀ (bs : List BlockIn) (y0 y1 : ℤ) (c : Bool) (res : List PlacedBlock),
      (∀ b ∈ bs, 0 < b.w ∧ 0 < b.h) →
      packBlocks margin colW gutter vGap bottomY maxColH bs y0 y1 c = .ok res →
      res.Pairwise blocksDisjoint ∧
        ∀ p ∈ res, placedBounds margin colW gutter y0 y1 p := by
  intro bs
  induction bs with
  | nil =>
    intro y0 y1 c res _ h
    have : res = [] := by
      simpa [packBlocks] using h.symm
    subst this
    simp
  | cons b bs ih =>
    intro y0 y1 c res hpos hok
    have hbw := (hpos b (by simp)).1
    have hbh := (hpos b (by simp)).2
    have hpos2 : ∀ x ∈ bs, 0 < x.w ∧ 0 < x.h := fun x hx => hpos x (by simp [hx])
    unfold packBlocks at hok
    by_cases h1 : colW < b.w
    · rw [if_pos h1] at hok
      by_cases h2 : maxColH < b.h
      · rw [if_pos h2] at hok
        exact absurd hok (by simp)
      · rw [if_neg h2] at hok
        by_cases h3 : max y0 y1 + b.h ≤ bottomY
        · rw [if_pos h3] at hok
          obtain ⟨rest, hrest, hres⟩ := exceptMap_ok hok
          obtain ⟨hpw, hbd⟩ := ih _ _ c rest hpos2 hrest
          subst hres
          apply step_disjoint hg (by omega) (by omega) ?_ ?_ hpw hbd
          · exact ⟨fun _ => ⟨le_max_left y0 y1, le_max_right y0 y1, rfl⟩,
              fun hc => by simp at hc, fun hc => by simp at hc⟩
          · exact ⟨fun _ => by constructor <;> (simp only; omega),
              fun hc => by simp at hc, fun hc => by simp at hc⟩
        · rw [if_neg h3] at hok
          exact absurd hok (by simp)
    · rw [if_neg h1] at hok
      push_neg at h1
      by_cases h2 : maxColH < b.h
      · rw [if_pos h2] at hok
        exact absurd hok (by simp)
      · rw [if_neg h2] at hok
        by_cases h3 : ycol y0 y1 c + b.h ≤ bottomY
        · rw [if_pos h3] at hok
          obtain ⟨rest, hrest, hres⟩ := exceptMap_ok hok
          cases c
          · simp only [ycol, colX, if_false, Bool.false_eq_true] at h3 hrest hres
            obtain ⟨hpw, hbd⟩ := ih _ _ false rest hpos2 hrest
            subst hres
            apply step_disjoint hg (by omega) (by omega) ?_ ?_ hpw hbd
            · exact ⟨fun hc => by simp at hc,
                fun _ => ⟨le_refl _, rfl, by simp only; omega⟩,
                fun hc => by simp at hc⟩
            · exact ⟨fun hc => by simp at hc,
                fun _ => by constructor <;> (simp only; omega),
                fun hc => by simp at hc⟩
          · simp only [ycol, colX, if_true, Bool.true_eq_false] at h3 hrest hres
            obtain ⟨hpw, hbd⟩ := ih _ _ true rest hpos2 hrest
            subst hres
            apply step_disjoint hg (by omega) (by omega) ?_ ?_ hpw hbd
            · exact ⟨fun hc => by simp at hc, fun hc => by simp at hc,
                fun _ => ⟨le_refl _, rfl⟩⟩
            · exact ⟨fun hc => by simp at hc, fun hc => by simp at hc,
                fun _ => by constructor <;> (simp only; omega)⟩
        · rw [if_neg h3] at hok
          by_cases h4 : ycol y0 y1 (!c) + b.h ≤ bottomY
          · rw [if_pos h4] at hok
            obtain ⟨rest, hrest, hres⟩ := exceptMap_ok hok
            cases c
            · simp only [ycol, colX, Bool.not_false, if_true] at h4 hrest hres
              obtain ⟨hpw, hbd⟩ := ih _ _ true rest hpos2 hrest
              subst hres
              apply step_disjoint hg (by omega) (by omega) ?_ ?_ hpw hbd
              · exact ⟨fun hc => by simp at hc, fun hc => by simp at hc,
                  fun _ => ⟨le_refl _, rfl⟩⟩
              · exact ⟨fun hc => by simp at hc, fun hc => by simp at hc,
                  fun _ => by constructor <;> (simp only; omega)⟩
            · simp only [ycol, colX, Bool.not_true, if_false, Bool.false_eq_true] at h4 hrest hres
              obtain ⟨hpw, hbd⟩ := ih _ _ false rest hpos2 hrest
              subst hres
              apply step_disjoint hg (by omega) (by omega) ?_ ?_ hpw hbd
              · exact ⟨fun hc => by simp at hc,
                  fun _ => ⟨le_refl _, rfl, by simp only; omega⟩,
                  fun hc => by simp at hc⟩
              · exact ⟨fun hc => by simp at hc,
                  fun _ => by constructor <;> (simp only; omega),
                  fun hc => by simp at hc⟩
          · rw [if_neg h4] at hok
            exact absurd hok (by simp)

/-! ## Image-pipeline packer
(`pict_data_pipeline/layout_generation_with_image.py`, `generate_layout`):
same two-column machine plus `scale_to_width` down-scaling and an explicit
positivity check on `bbox_size`. -/

/-- `scale_to_width(w, h, width_limit)`: proportional down-scale when the
block is too wide and the `scale_to_column` policy flag is on. -/
def scaleToWidth (scaleToColumn : Bool) (w h widthLimit : ℤ) : ℤ × ℤ :=
  if w ≤ widthLimit then (w, h)
  else if !scaleToColumn then (w, h)
  else (widthLimit, max 1 (pyRound ((h : ℚ) * (widthLimit : ℚ) / (w : ℚ))))

/-- The block loop of the image-pipeline `generate_layout`. -/
def packBlocksImg (margin colW gutter vGap bottomY maxColH fullW : ℤ) (scaleToColumn : Bool) :
    List BlockIn → ℤ → ℤ → Bool → Except (List Char) (List PlacedBlock)
  | [], _, _, _ => .ok []
  | b :: bs, y0, y1, c =>
    if b.w ≤ 0 ∨ b.h ≤ 0 then .error ['p']
    else if colW < b.w then
      match scaleToWidth scaleToColumn b.w b.h fullW with
      | (w, h) =>
        if maxColH < h then .error ['h']
        else if max y0 y1 + h ≤ bottomY then
          Except.map
            (fun rest => ⟨margin, max y0 y1, margin + w, max y0 y1 + h, none⟩ :: rest)
            (packBlocksImg margin colW gutter vGap bottomY maxColH fullW scaleToColumn bs
              (max y0 y1 + h + vGap) (max y0 y1 + h + vGap) c)
        else .error ['f']
    else
      match scaleToWidth scaleToColumn b.w b.h colW with
      | (w, h) =>
        if maxColH < h then .error ['H']
        else if ycol y0 y1 c + h ≤ bottomY then
          Except.map
            (fun rest => ⟨colX margin colW gutter c, ycol y0 y1 c,
              colX margin colW gutter c + w, ycol y0 y1 c + h, some c⟩ :: rest)
            (packBlocksImg margin colW gutter vGap bottomY maxColH fullW scaleToColumn bs
              (if c then y0 else ycol y0 y1 c + h + vGap)
              (if c then ycol y0 y1 c + h + vGap else y1) c)
        else if ycol y0 y1 (!c) + h ≤ bottomY then
          Except.map
            (fun rest => ⟨colX margin colW gutter (!c), ycol y0 y1 (!c),
              colX margin colW gutter (!c) + w, ycol y0 y1 (!c) + h, some (!c)⟩ :: rest)
            (packBlocksImg margin colW gutter vGap bottomY maxColH fullW scaleToColumn bs
              (if (!c) then y0 else ycol y0 y1 (!c) + h + vGap)
              (if (!c) then ycol y0 y1 (!c) + h + vGap else y1) (!c))
        else .error ['c']

/-- The image-pipeline `generate_layout` (geometry): validation, then the
block loop from `y_col = [margin, margin]`, `col_idx = 0`. -/
def generateLayoutImg (margin gutter vGap pageW pageH : ℤ) (scaleToColumn : Bool)
    (blocks : List BlockIn) : Except (List Char) (List PlacedBlock) :=
  if pageW - 2 * margin ≤ 0 then .error ['m']
  else if pageW - 2 * margin - gutter ≤ 0 then .error ['g']
  else if (pageH - margin) - margin ≤ 0 then .error ['M']
  else
    packBlocksImg margin (Int.fdiv (pageW - 2 * margin - gutter) 2) gutter vGap
      (pageH - margin) ((pageH - margin) - margin) (pageW - 2 * margin) scaleToColumn
      blocks margin margin false

theorem scaleToWidth_h_pos {scaleToColumn : Bool} {w h widthLimit : ℤ} (hh : 0 < h) :
    0 < (scaleToWidth scaleToColumn w h widthLimit).2 := by
  unfold scaleToWidth
  split_ifs <;> simp only <;> omega

theorem scaleToWidth_fst_le (w h widthLimit : ℤ) :
    (scaleToWidth true w h widthLimit).1 ≤ widthLimit := by
  unfold scaleToWidth
  split_ifs with h1 h2
  · simpa using h1
  · simp at h2
  · simp

theorem packBlocksImg_disjoint (margin colW gutter vGap bottomY maxColH fullW : ℤ)
    (sc : Bool) (hg : 0 ≤ gutter) (hv : 0 ≤ vGap) :
    ∀ (bs : List BlockIn) (y0 y1 : ℤ) (c : Bool) (res : List PlacedBlock),
      packBlocksImg margin colW gutter vGap bottomY maxColH fullW sc bs y0 y1 c = .ok res →
      res.Pairwise blocksDisjoint ∧
        ∀ p ∈ res, placedBounds margin colW gutter y0 y1 p := by
  intro bs
  induction bs with
  | nil =>
    intro y0 y1 c res h
    have : res = [] := by
      simpa [packBlocksImg] using h.symm
    subst this
    simp
  | cons b bs ih =>
    intro y0 y1 c res hok
    unfold packBlocksImg at hok
    by_cases h0 : b.w ≤ 0 ∨ b.h ≤ 0
    · rw [if_pos h0] at hok
      exact absurd hok (by simp)
    · rw [if_neg h0] at hok
      push_neg at h0
      obtain ⟨hbw0, hbh0⟩ := h0
      by_cases h1 : colW < b.w
      · rw [if_pos h1] at hok
        rcases hsw : scaleToWidth sc b.w b.h fullW with ⟨w2, h2⟩
        have hh2 : 0 < h2 := by
          have := @scaleToWidth_h_pos sc b.w b.h fullW hbh0
          rw [hsw] at this
          exact this
        simp only [hsw] at hok
        by_cases htall : maxColH < h2
        · rw [if_pos htall] at hok
          exact absurd hok (by simp)
        · rw [if_neg htall] at hok
          by_cases hfits : max y0 y1 + h2 ≤ bottomY
          · rw [if_pos hfits] at hok
            obtain ⟨rest, hrest, hres⟩ := exceptMap_ok hok
            obtain ⟨hpw, hbd⟩ := ih _ _ c rest hrest
            subst hres
            apply step_disjoint hg (by omega) (by omega) ?_ ?_ hpw hbd
            · exact ⟨fun _ => ⟨le_max_left y0 y1, le_max_right y0 y1, rfl⟩,
                fun hc => by simp at hc, fun hc => by simp at hc⟩
            · exact ⟨fun _ => by constructor <;> (simp only; omega),
                fun hc => by simp at hc, fun hc => by simp at hc⟩
          · rw [if_neg hfits] at hok
            exact absurd hok (by simp)
      · rw [if_neg h1] at hok
        push_neg at h1
        have hsw : scaleToWidth sc b.w b.h colW = (b.w, b.h) := by
          unfold scaleToWidth
          rw [if_pos h1]
        simp only [hsw] at hok
        by_cases h2 : maxColH < b.h
        · rw [if_pos h2] at hok
          exact absurd hok (by simp)
        · rw [if_neg h2] at hok
          by_cases h3 : ycol y0 y1 c + b.h ≤ bottomY
          · rw [if_pos h3] at hok
            obtain ⟨rest, hrest, hres⟩ := exceptMap_ok hok
            cases c
            · simp only [ycol, colX, if_false, Bool.false_eq_true] at h3 hrest hres
              obtain ⟨hpw, hbd⟩ := ih _ _ false rest hrest
              subst hres
              apply step_disjoint hg (by omega) (by omega) ?_ ?_ hpw hbd
              · exact ⟨fun hc => by simp at hc,
                  fun _ => ⟨le_refl _, rfl, by simp only; omega⟩,
                  fun hc => by simp at hc⟩
              · exact ⟨fun hc => by simp at hc,
                  fun _ => by constructor <;> (simp only; omega),
                  fun hc => by simp at hc⟩
            · simp only [ycol, colX, if_true, Bool.true_eq_false] at h3 hrest hres
              obtain ⟨hpw, hbd⟩ := ih _ _ true rest hrest
              subst hres
              apply step_disjoint hg (by omega) (by omega) ?_ ?_ hpw hbd
              · exact ⟨fun hc => by simp at hc, fun hc => by simp at hc,
                  fun _ => ⟨le_refl _, rfl⟩⟩
              · exact ⟨fun hc => by simp at hc, fun hc => by simp at hc,
                  fun _ => by constructor <;> (simp only; omega)⟩
          · rw [if_neg h3] at hok
            by_cases h4 : ycol y0 y1 (!c) + b.h ≤ bottomY
            · rw [if_pos h4] at hok
              obtain ⟨rest, hrest, hres⟩ := exceptMap_ok hok
              cases c
              · simp only [ycol, colX, Bool.not_false, if_true] at h4 hrest hres
                obtain ⟨hpw, hbd⟩ := ih _ _ true rest hrest
                subst hres
                apply step_disjoint hg (by omega) (by omega) ?_ ?_ hpw hbd
                · exact ⟨fun hc => by simp at hc, fun hc => by simp at hc,
                    fun _ => ⟨le_refl _, rfl⟩⟩
                · exact ⟨fun hc => by simp at hc, fun hc => by simp at hc,
                    fun _ => by constructor <;> (simp only; omega)⟩
              · simp only [ycol, colX, Bool.not_true, if_false, Bool.false_eq_true]
                  at h4 hrest hres
                obtain ⟨hpw, hbd⟩ := ih _ _ false rest hrest
                subst hres
                apply step_disjoint hg (by omega) (by omega) ?_ ?_ hpw hbd
                · exact ⟨fun hc => by simp at hc,
                    fun _ => ⟨le_refl _, rfl, by simp only; omega⟩,
                    fun hc => by simp at hc⟩
                · exact ⟨fun hc => by simp at hc,
                    fun _ => by constructor <;> (simp only; omega),
                    fun hc => by simp at hc⟩
            · rw [if_neg h4] at hok
              exact absurd hok (by simp)

/-- C3: on every successful run of either packer (positive block sizes given
for the document packer, which does not check them itself; the image packer
checks positivity and may rescale), the placed block bboxes are pairwise
separated along an axis — with positive extents, that is exactly disjoint
interiors — across all routing combinations.  `gutter, v_gap ≥ 0` is the
style contract ("all values positive where they denote a length"). -/
theorem packed_blocks_pairwise_disjoint :
    (∀ (margin gutter vGap pageW pageH : ℤ) (blocks : List BlockIn)
        (res : List PlacedBlock),
      0 ≤ gutter → 0 ≤ vGap → (∀ b ∈ blocks, 0 < b.w ∧ 0 < b.h) →
      generateLayout margin gutter vGap pageW pageH blocks = .ok res →
      res.Pairwise blocksDisjoint) ∧
    (∀ (margin gutter vGap pageW pageH : ℤ) (sc : Bool) (blocks : List BlockIn)
        (res : List PlacedBlock),
      0 ≤ gutter → 0 ≤ vGap →
      generateLayoutImg margin gutter vGap pageW pageH sc blocks = .ok res →
      res.Pairwise blocksDisjoint) := by
  constructor
  · intro margin gutter vGap pageW pageH blocks res hg hv hpos hok
    unfold generateLayout at hok
    split_ifs at hok with h1 h2 h3
    exact (packBlocks_disjoint margin (Int.fdiv (pageW - 2 * margin - gutter) 2) gutter vGap
      (pageH - margin) ((pageH - margin) - margin) hg hv blocks margin margin false res
      hpos hok).1
  · intro margin gutter vGap pageW pageH sc blocks res hg hv hok
    unfold generateLayoutImg at hok
    split_ifs at hok with h1 h2 h3
    exact (packBlocksImg_disjoint margin (Int.fdiv (pageW - 2 * margin - gutter) 2) gutter vGap
      (pageH - margin) ((pageH - margin) - margin) (pageW - 2 * margin) sc hg hv blocks
      margin margin false res hok).1

set_option maxRecDepth 16000 in
/-- Witness for C3 at a concrete three-block document (columnar, full-width,
columnar) and a concrete scaled image run. -/
theorem packed_blocks_pairwise_disjoint_witness :
    ((0 : ℤ) ≤ 40 ∧ (0 : ℤ) ≤ 24 ∧
      (∀ b ∈ [(⟨500, 300⟩ : BlockIn), ⟨1200, 100⟩, ⟨600, 200⟩], 0 < b.w ∧ 0 < b.h) ∧
      generateLayout 120 40 24 2480 3508 [⟨500, 300⟩, ⟨1200, 100⟩, ⟨600, 200⟩] =
        .ok [⟨120, 120, 620, 420, some false⟩, ⟨120, 444, 1320, 544, none⟩,
          ⟨120, 568, 720, 768, some false⟩] ∧
      List.Pairwise blocksDisjoint
        [(⟨120, 120, 620, 420, some false⟩ : PlacedBlock), ⟨120, 444, 1320, 544, none⟩,
          ⟨120, 568, 720, 768, some false⟩]) ∧
    (generateLayoutImg 120 40 24 2480 3508 true [⟨3000, 100⟩] =
        .ok [⟨120, 120, 2360, 195, none⟩] ∧
      List.Pairwise blocksDisjoint [(⟨120, 120, 2360, 195, none⟩ : PlacedBlock)]) := by
  have hok1 : generateLayout 120 40 24 2480 3508 [⟨500, 300⟩, ⟨1200, 100⟩, ⟨600, 200⟩] =
      .ok [⟨120, 120, 620, 420, some false⟩, ⟨120, 444, 1320, 544, none⟩,
        ⟨120, 568, 720, 768, some false⟩] := by decide
  have hok2 : generateLayoutImg 120 40 24 2480 3508 true [⟨3000, 100⟩] =
      .ok [⟨120, 120, 2360, 195, none⟩] :=
    of_decide_eq_true (by with_unfolding_all rfl)
  refine ⟨⟨by decide, by decide, by decide, hok1, ?_⟩, hok2, ?_⟩
  · exact packed_blocks_pairwise_disjoint.1 120 40 24 2480 3508 _ _ (by decide) (by decide)
      (by decide) hok1
  · exact packed_blocks_pairwise_disjoint.2 120 40 24 2480 3508 true _ _ (by decide) (by decide)
      hok2

theorem packBlocks_colwidth (margin colW gutter vGap bottomY maxColH : ℤ) :
    ∀ (bs : List BlockIn) (y0 y1 : ℤ) (c : Bool) (res : List PlacedBlock),
      packBlocks margin colW gutter vGap bottomY maxColH bs y0 y1 c = .ok res →
      ∀ p ∈ res, ∀ cc, p.col = some cc → p.x2 - p.x1 ≤ colW := by
  intro bs
  induction bs with
  | nil =>
    intro y0 y1 c res h
    have : res = [] := by simpa [packBlocks] using h.symm
    subst this
    simp
  | cons b bs ih =>
    intro y0 y1 c res hok p hp cc hpc
    unfold packBlocks at hok
    by_cases h1 : colW < b.w
    · rw [if_pos h1] at hok
      split_ifs at hok with h2 h3
      obtain ⟨rest, hrest, hres⟩ := exceptMap_ok hok
      subst hres
      rcases List.mem_cons.mp hp with rfl | hp
      · simp at hpc
      · exact ih _ _ _ _ hrest p hp cc hpc
    · rw [if_neg h1] at hok
      push_neg at h1
      split_ifs at hok with h2 h3 h4
      all_goals
        obtain ⟨rest, hrest, hres⟩ := exceptMap_ok hok
        subst hres
        rcases List.mem_cons.mp hp with rfl | hp
        · simp only
          omega
        · exact ih _ _ _ _ hrest p hp cc hpc

theorem packBlocksImg_widths (margin colW gutter vGap bottomY maxColH fullW : ℤ) :
    ∀ (bs : List BlockIn) (y0 y1 : ℤ) (c : Bool) (res : List PlacedBlock),
      packBlocksImg margin colW gutter vGap bottomY maxColH fullW true bs y0 y1 c = .ok res →
      ∀ p ∈ res, (p.col = none → p.x2 - p.x1 ≤ fullW) ∧
        (∀ cc, p.col = some cc → p.x2 - p.x1 ≤ colW) := by
  intro bs
  induction bs with
  | nil =>
    intro y0 y1 c res h
    have : res = [] := by simpa [packBlocksImg] using h.symm
    subst this
    simp
  | cons b bs ih =>
    intro y0 y1 c res hok p hp
    unfold packBlocksImg at hok
    by_cases h0 : b.w ≤ 0 ∨ b.h ≤ 0
    · rw [if_pos h0] at hok
      simp at hok
    · rw [if_neg h0] at hok
      by_cases h1 : colW < b.w
      · rw [if_pos h1] at hok
        rcases hsw : scaleToWidth true b.w b.h fullW with ⟨w2, h2⟩
        have hw2 : w2 ≤ fullW := by
          have := scaleToWidth_fst_le b.w b.h fullW
          rw [hsw] at this
          exact this
        simp only [hsw] at hok
        split_ifs at hok with ha hb
        obtain ⟨rest, hrest, hres⟩ := exceptMap_ok hok
        subst hres
        rcases List.mem_cons.mp hp with rfl | hp
        · exact ⟨fun _ => by simp only; omega, fun cc hpc => by simp at hpc⟩
        · exact ih _ _ _ _ hrest p hp
      · rw [if_neg h1] at hok
        push_neg at h1
        have hsw : scaleToWidth true b.w b.h colW = (b.w, b.h) := by
          unfold scaleToWidth
          rw [if_pos h1]
        simp only [hsw] at hok
        split_ifs at hok with h2 h3 h4
        all_goals
          obtain ⟨rest, hrest, hres⟩ := exceptMap_ok hok
          subst hres
          rcases List.mem_cons.mp hp with rfl | hp
          · exact ⟨fun hpc => by simp at hpc, fun cc _ => by simp only; omega⟩
          · exact ih _ _ _ _ hrest p hp

/-- C4 (counterexample): the document packer never bounds a full-width
block's width.  With the default geometry (page 2480, margin 120, gutter 40;
margin-bounded width 2240) a block of requested width 3000 is routed
full-width and placed with bbox width 3000 > 2240, extending past the page. -/
theorem fullwidth_width_exceeds_page_width :
    generateLayout 120 40 24 2480 3508 [⟨3000, 10⟩] = .ok [⟨120, 120, 3120, 130, none⟩] ∧
    (2480 - 2 * 120 : ℤ) < 3120 - 120 := by
  constructor
  · decide
  · decide

/-- C4 (amended): the columnar width bound holds in both packers (a block is
routed columnar only when its width is at most `col_w`, and it is placed
unscaled); the full-width width bound holds in the image-pipeline packer when
`scale_to_column` is on (`scale_to_width` caps the width at the
margin-bounded page width), but the document packer leaves full-width widths
unbounded (see the counterexample). -/
theorem block_width_bounds :
    (∀ (margin gutter vGap pageW pageH : ℤ) (blocks : List BlockIn)
        (res : List PlacedBlock),
      generateLayout margin gutter vGap pageW pageH blocks = .ok res →
      ∀ p ∈ res, ∀ cc, p.col = some cc →
        p.x2 - p.x1 ≤ Int.fdiv (pageW - 2 * margin - gutter) 2) ∧
    (∀ (margin gutter vGap pageW pageH : ℤ) (blocks : List BlockIn)
        (res : List PlacedBlock),
      generateLayoutImg margin gutter vGap pageW pageH true blocks = .ok res →
      ∀ p ∈ res, (p.col = none → p.x2 - p.x1 ≤ pageW - 2 * margin) ∧
        (∀ cc, p.col = some cc → p.x2 - p.x1 ≤ Int.fdiv (pageW - 2 * margin - gutter) 2)) := by
  constructor
  · intro margin gutter vGap pageW pageH blocks res hok
    unfold generateLayout at hok
    split_ifs at hok with h1 h2 h3
    exact packBlocks_colwidth margin (Int.fdiv (pageW - 2 * margin - gutter) 2) gutter vGap
      (pageH - margin) ((pageH - margin) - margin) blocks margin margin false res hok
  · intro margin gutter vGap pageW pageH blocks res hok
    unfold generateLayoutImg at hok
    split_ifs at hok with h1 h2 h3
    exact packBlocksImg_widths margin (Int.fdiv (pageW - 2 * margin - gutter) 2) gutter vGap
      (pageH - margin) ((pageH - margin) - margin) (pageW - 2 * margin) blocks
      margin margin false res hok

set_option maxRecDepth 16000 in
/-- Witness for C4's amended theorem: a columnar document block of width
500 ≤ 1100, and a scaled image block capped at the margin-bounded width
2240. -/
theorem block_width_bounds_witness :
    (generateLayout 120 40 24 2480 3508 [⟨500, 300⟩] =
        .ok [⟨120, 120, 620, 420, some false⟩] ∧
      ∀ p ∈ [(⟨120, 120, 620, 420, some false⟩ : PlacedBlock)], ∀ cc, p.col = some cc →
        p.x2 - p.x1 ≤ Int.fdiv (2480 - 2 * 120 - 40) 2) ∧
    (generateLayoutImg 120 40 24 2480 3508 true [⟨3000, 100⟩] =
        .ok [⟨120, 120, 2360, 195, none⟩] ∧
      ∀ p ∈ [(⟨120, 120, 2360, 195, none⟩ : PlacedBlock)],
        (p.col = none → p.x2 - p.x1 ≤ 2480 - 2 * 120)) := by
  have hok1 : generateLayout 120 40 24 2480 3508 [⟨500, 300⟩] =
      .ok [⟨120, 120, 620, 420, some false⟩] := by decide
  have hok2 : generateLayoutImg 120 40 24 2480 3508 true [⟨3000, 100⟩] =
      .ok [⟨120, 120, 2360, 195, none⟩] :=
    of_decide_eq_true (by with_unfolding_all rfl)
  refine ⟨⟨hok1, block_width_bounds.1 120 40 24 2480 3508 _ _ hok1⟩,
    hok2, fun p hp hpc => (block_width_bounds.2 120 40 24 2480 3508 _ _ hok2 p hp).1 hpc⟩

/-- C5: a block wider than `col_w` (with a height that passes the `max_col_h`
pre-check) takes the full-width path: it is placed at
`y = max(y_col[0], y_col[1])`, `x = margin`; if that crosses the bottom
margin the layout fails immediately with an error (no pagination); on success
both column cursors advance to the block's bottom plus `v_gap` and the
current-column pointer is unchanged. -/
theorem packBlocks_fullwidth_step (margin colW gutter vGap bottomY maxColH : ℤ)
    (b : BlockIn) (bs : List BlockIn) (y0 y1 : ℤ) (c : Bool)
    (hwide : colW < b.w) (htall : b.h ≤ maxColH) :
    (bottomY < max y0 y1 + b.h →
      packBlocks margin colW gutter vGap bottomY maxColH (b :: bs) y0 y1 c =
        .error ['f']) ∧
    (max y0 y1 + b.h ≤ bottomY →
      packBlocks margin colW gutter vGap bottomY maxColH (b :: bs) y0 y1 c =
        Except.map
          (fun rest => ⟨margin, max y0 y1, margin + b.w, max y0 y1 + b.h, none⟩ :: rest)
          (packBlocks margin colW gutter vGap bottomY maxColH bs
            (max y0 y1 + b.h + vGap) (max y0 y1 + b.h + vGap) c)) := by
  constructor
  · intro h
    conv_lhs => rw [packBlocks]
    rw [if_pos hwide, if_neg (not_lt.mpr htall), if_neg (by omega)]
  · intro h
    conv_lhs => rw [packBlocks]
    rw [if_pos hwide, if_neg (not_lt.mpr htall), if_pos h]

/-- Witness for C5 at the spec's scenario: page 2480, margin 120, gutter 40
gives `col_w = (2480 - 240 - 40) // 2 = 1100`; a block of width 1200 takes
the full-width path and both cursors advance past its bottom. -/
theorem packBlocks_fullwidth_step_witness :
    (Int.fdiv (2480 - 2 * 120 - 40) 2 : ℤ) = 1100 ∧ (1100 : ℤ) < 1200 ∧
    (100 : ℤ) ≤ 3268 ∧
    packBlocks 120 1100 40 24 3388 3268 [⟨1200, 100⟩] 120 120 false =
      .ok [⟨120, 120, 1320, 220, none⟩] := by
  refine ⟨by decide, by decide, by decide, ?_⟩
  have h := (packBlocks_fullwidth_step 120 1100 40 24 3388 3268 ⟨1200, 100⟩ [] 120 120 false
    (by decide) (by decide)).2 (by decide)
  rw [h]
  decide

/-- C6: a columnar block (width at most `col_w`, height passing the
`max_col_h` pre-check) is first tried in the current column at that column's
cursor; if its height does not fit above the bottom margin there, it is tried
in the other column at the *other column's own* cursor; if neither fits, the
layout fails.  On success the used column's cursor advances to the block's
bottom plus `v_gap` and the current-column pointer becomes the column
actually used. -/
theorem packBlocks_columnar_step (margin colW gutter vGap bottomY maxColH : ℤ)
    (b : BlockIn) (bs : List BlockIn) (y0 y1 : ℤ) (c : Bool)
    (hnarrow : b.w ≤ colW) (htall : b.h ≤ maxColH) :
    (ycol y0 y1 c + b.h ≤ bottomY →
      packBlocks margin colW gutter vGap bottomY maxColH (b :: bs) y0 y1 c =
        Except.map
          (fun rest => ⟨colX margin colW gutter c, ycol y0 y1 c,
            colX margin colW gutter c + b.w, ycol y0 y1 c + b.h, some c⟩ :: rest)
          (packBlocks margin colW gutter vGap bottomY maxColH bs
            (if c then y0 else ycol y0 y1 c + b.h + vGap)
            (if c then ycol y0 y1 c + b.h + vGap else y1) c)) ∧
    (bottomY < ycol y0 y1 c + b.h → ycol y0 y1 (!c) + b.h ≤ bottomY →
      packBlocks margin colW gutter vGap bottomY maxColH (b :: bs) y0 y1 c =
        Except.map
          (fun rest => ⟨colX margin colW gutter (!c), ycol y0 y1 (!c),
            colX margin colW gutter (!c) + b.w, ycol y0 y1 (!c) + b.h, some (!c)⟩ :: rest)
          (packBlocks margin colW gutter vGap bottomY maxColH bs
            (if (!c) then y0 else ycol y0 y1 (!c) + b.h + vGap)
            (if (!c) then ycol y0 y1 (!c) + b.h + vGap else y1) (!c))) ∧
    (bottomY < ycol y0 y1 c + b.h → bottomY < ycol y0 y1 (!c) + b.h →
      packBlocks margin colW gutter vGap bottomY maxColH (b :: bs) y0 y1 c =
        .error ['c']) := by
  refine ⟨fun h1 => ?_, fun h1 h2 => ?_, fun h1 h2 => ?_⟩
  · conv_lhs => rw [packBlocks]
    rw [if_neg (not_lt.mpr hnarrow), if_neg (not_lt.mpr htall), if_pos h1]
  · conv_lhs => rw [packBlocks]
    rw [if_neg (not_lt.mpr hnarrow), if_neg (not_lt.mpr htall), if_neg (by omega), if_pos h2]
  · conv_lhs => rw [packBlocks]
    rw [if_neg (not_lt.mpr hnarrow), if_neg (not_lt.mpr htall), if_neg (by omega),
      if_neg (by omega)]

/-- Witness for C6 at the spec's second-column scenario: the current column's
cursor (2144) cannot take another 2000-px block before the 3388 bottom, the
other column's own cursor (120) can, so the block lands in column 1 and the
current-column pointer becomes column 1. -/
theorem packBlocks_columnar_step_witness :
    (500 : ℤ) ≤ 1100 ∧ (2000 : ℤ) ≤ 3268 ∧ (3388 : ℤ) < 2144 + 2000 ∧
    (120 : ℤ) + 2000 ≤ 3388 ∧
    packBlocks 120 1100 40 24 3388 3268 [⟨500, 2000⟩] 2144 120 false =
      .ok [⟨1260, 120, 1760, 2120, some true⟩] := by
  refine ⟨by decide, by decide, by decide, by decide, ?_⟩
  have h := (packBlocks_columnar_step 120 1100 40 24 3388 3268 ⟨500, 2000⟩ [] 2144 120 false
    (by decide) (by decide)).2.1 (by decide) (by decide)
  rw [h]
  decide

/-! ## Block size estimator (`utils/count_bbox_size.py`,
`measure_bbox_size_for_block`, `measure_bbox_size_for_one_word`)

`get_font_vmetrics_pt` / `get_font_vmetrics_tight_pt` are font-table reads;
their returned line heights enter as the oracles `lineHpt` / `tightLineHpt`. -/

/-- `pt_to_px(pt, dpi) = pt * dpi / 72`. -/
def ptToPx (pt : ℚ) (dpi : ℤ) : ℚ := pt * (dpi : ℚ) / 72

/-- `measure_bbox_size_for_block`: wrap at `max_width_px - 2 * padding_px`,
then `(width, height, lines)`; width capped by `max_width_px`, height from
the loose line height, leading and padding. -/
def measureBboxSizeForBlock (widthOf : List Char → ℚ) (lineHpt : ℚ) (content : List Char)
    (maxWidthPx : ℤ) (leadingPt paddingPt : ℚ) (dpi : ℤ) : ℤ × ℤ × List (List Char) :=
  let paddingPx : ℤ := ⌈ptToPx paddingPt dpi⌉
  let lines0 := wrapTextToLines widthOf content (maxWidthPx - 2 * paddingPx)
  let lines := if lines0 = [] then [[]] else lines0
  let maxLineW : ℚ := lines.foldl (fun acc ln => max acc (widthOf ln)) 0
  let textHpt : ℚ := lineHpt + ((max 0 ((lines.length : ℤ) - 1) : ℤ) : ℚ) * leadingPt
  (⌈min ((maxWidthPx : ℤ) : ℚ) (maxLineW + 2 * (paddingPx : ℚ))⌉,
   ⌈(textHpt + 2 * paddingPt) * ((dpi : ℚ) / 72)⌉,
   lines)

/-- `measure_bbox_size_for_one_word`: `(1, 1)` for an empty token, otherwise
the measured width (a float in the source) and the tight line height in
pixels, at least 1. -/
def measureBboxSizeForOneWord (widthOf : List Char → ℚ) (tightLineHpt : ℚ)
    (text : List Char) (dpi : ℤ) : ℚ × ℤ :=
  if text = [] then (1, 1)
  else (widthOf text, max 1 ⌈tightLineHpt * ((dpi : ℚ) / 72)⌉)

/-- `stringWidth("") == 0`; a constant-zero oracle (only the empty string's
width is consulted on empty content). -/
def zeroWidth : List Char → ℚ := fun _ => 0

/-- C9 (counterexample): for empty content the block estimator does not
return a 1×1 box.  With realistic style values (padding 6 pt, loose line
height 14 pt, dpi 300, max width 1040) it returns 50×109: the width is
`ceil(min(max_width, 2 * padding_px))` and the height covers one line plus
padding. -/
theorem empty_block_not_one_by_one :
    measureBboxSizeForBlock zeroWidth 14 [] 1040 13 6 300 = (50, 109, [[]]) ∧
    ((50 : ℤ), (109 : ℤ)) ≠ (1, 1) :=
  ⟨of_decide_eq_true (by with_unfolding_all rfl), by decide⟩

/-- C9 (amended): on empty content the block estimator never fails and
returns exactly one empty line, width `ceil(min(max_width_px, 2*padding_px))`
and height `ceil((line_h_pt + 2*padding_pt) * dpi/72)` — a 1×1 box only when
those expressions are 1; the single-token sizer does return `(1, 1)` for an
empty token. -/
theorem empty_content_measure (widthOf : List Char → ℚ) (lineHpt : ℚ) (maxWidthPx : ℤ)
    (leadingPt paddingPt : ℚ) (dpi : ℤ) (hw0 : widthOf [] = 0) :
    measureBboxSizeForBlock widthOf lineHpt [] maxWidthPx leadingPt paddingPt dpi =
      (⌈min ((maxWidthPx : ℤ) : ℚ) (2 * ((⌈ptToPx paddingPt dpi⌉ : ℤ) : ℚ))⌉,
       ⌈(lineHpt + 2 * paddingPt) * ((dpi : ℚ) / 72)⌉, [[]]) ∧
    ∀ tightLineHpt : ℚ,
      measureBboxSizeForOneWord widthOf tightLineHpt [] dpi = (1, 1) := by
  constructor
  · have hwrap : wrapTextToLines widthOf [] (maxWidthPx - 2 * ⌈ptToPx paddingPt dpi⌉) = [[]] :=
      rfl
    simp only [measureBboxSizeForBlock, hwrap]
    norm_num [hw0]
  · intro tightLineHpt
    simp [measureBboxSizeForOneWord]

/-- Witness for C9's amended theorem at concrete style values. -/
theorem empty_content_measure_witness :
    zeroWidth [] = 0 ∧
    measureBboxSizeForBlock zeroWidth 14 [] 1040 13 6 300 =
      (⌈min (((1040 : ℤ) : ℚ)) (2 * ((⌈ptToPx 6 300⌉ : ℤ) : ℚ))⌉,
       ⌈((14 : ℚ) + 2 * 6) * ((300 : ℚ) / 72)⌉, [[]]) ∧
    measureBboxSizeForOneWord zeroWidth 14 [] 300 = (1, 1) :=
  ⟨rfl, (empty_content_measure zeroWidth 14 1040 13 6 300 rfl).1,
    (empty_content_measure zeroWidth 14 1040 13 6 300 rfl).2 14⟩

/-! ## Tokenizer (`utils/generate_json_with_sizes.py`, `split_lines_to_tokens`)

`re.findall(r"\n|[^\s]+", line)`: an explicit `"\n"` character is its own
token; otherwise maximal runs of non-whitespace characters are tokens
(`\s` modelled by the ASCII whitespace class, which covers every character
the pipeline feeds it). -/

/-- The characters matched by `\s` (ASCII range). -/
def isPySpace (c : Char) : Bool :=
  c == ' ' || c == '\t' || c == '\n' || c == '\r' || c == '\x0b' || c == '\x0c'

/-- The scan behind `re.findall(r"\n|[^\s]+", line)`: `acc` is the reversed
current non-whitespace run. -/
def tokensAux : List Char → List Char → List (List Char)
  | acc, [] => if acc = [] then [] else [acc.reverse]
  | acc, c :: cs =>
    if c = '\n' then
      (if acc = [] then [] else [acc.reverse]) ++ ['\n'] :: tokensAux [] cs
    else if isPySpace c then
      (if acc = [] then [] else [acc.reverse]) ++ tokensAux [] cs
    else tokensAux (c :: acc) cs

/-- `re.findall(r"\n|[^\s]+", line)`. -/
def tokenizeLine (line : List Char) : List (List Char) := tokensAux [] line

/-- `split_lines_to_tokens(lines)`: tokens of each (non-empty) line, with one
explicit `"\n"` marker token at every boundary between returned lines. -/
def splitLinesToTokens : List (List Char) → List (List Char)
  | [] => []
  | [l] => if l = [] then [] else tokenizeLine l
  | l :: l2 :: ls =>
    (if l = [] then [] else tokenizeLine l) ++ ['\n'] :: splitLinesToTokens (l2 :: ls)

/-- Grouping a token stream into logical lines at `"\n"` marker tokens —
the reference for what the typesetter's `line_word_indices` must produce. -/
def splitMarkers : List (List Char) → List (List (List Char))
  | [] => [[]]
  | t :: ts =>
    if t = ['\n'] then [] :: splitMarkers ts
    else
      match splitMarkers ts with
      | [] => [[t]]
      | g :: gs => (t :: g) :: gs

theorem splitMarkers_cons_ne {t : List Char} {ts : List (List Char)} (h : t ≠ ['\n']) :
    splitMarkers (t :: ts) =
      match splitMarkers ts with
      | [] => [[t]]
      | g :: gs => (t :: g) :: gs := by
  conv_lhs => rw [splitMarkers]
  rw [if_neg h]

theorem splitMarkers_ne_nil : ∀ ts : List (List Char), splitMarkers ts ≠ []
  | [] => by simp [splitMarkers]
  | t :: ts => by
    unfold splitMarkers
    split_ifs
    · simp
    · cases h : splitMarkers ts <;> simp

theorem placeWords_groups (left spacePx leadingPx baseLineH : ℚ) :
    ∀ (ws : List WordIn) (cx cy clh : ℚ),
      (((placeWords left spacePx leadingPx baseLineH ws cx cy clh).1 ::
          (placeWords left spacePx leadingPx baseLineH ws cx cy clh).2).map
        (List.map fun pw => pw.content)) =
      splitMarkers (ws.map fun w => w.content) := by
  intro ws
  induction ws with
  | nil => intro cx cy clh; simp [placeWords, splitMarkers]
  | cons w ws ih =>
    intro cx cy clh
    unfold placeWords
    by_cases hnl : w.content = ['\n']
    · rw [if_pos hnl]
      rcases hp : placeWords left spacePx leadingPx baseLineH ws left (cy + leadingPx) baseLineH
        with ⟨line, rest⟩
      have hrec := ih left (cy + leadingPx) baseLineH
      rw [hp] at hrec
      simp only [List.map_cons, splitMarkers, hnl, if_pos rfl]
      simpa using hrec
    · rw [if_neg hnl]
      rcases hp : placeWords left spacePx leadingPx baseLineH ws (cx + w.w + spacePx) cy
          (max clh (w.h : ℚ)) with ⟨line, rest⟩
      have hrec := ih (cx + w.w + spacePx) cy (max clh (w.h : ℚ))
      rw [hp] at hrec
      simp only [hp, List.map_cons]
      rw [splitMarkers_cons_ne hnl, ← hrec]
      simp

theorem tokensAux_no_marker :
    ∀ (l acc : List Char), '\n' ∉ l → '\n' ∉ acc → ['\n'] ∉ tokensAux acc l := by
  intro l
  induction l with
  | nil =>
    intro acc _ hacc
    unfold tokensAux
    by_cases h : acc = []
    · rw [if_pos h]
      simp
    · rw [if_neg h]
      simp only [List.mem_singleton]
      intro hc
      exact hacc (by
        have : '\n' ∈ acc.reverse := by rw [← hc]; simp
        simpa using this)
  | cons c cs ih =>
    intro acc hl hacc
    have hc : c ≠ '\n' := fun hx => hl (by simp [hx])
    have hcs : '\n' ∉ cs := fun hx => hl (by simp [hx])
    unfold tokensAux
    rw [if_neg hc]
    by_cases hsp : isPySpace c
    · rw [if_pos hsp]
      intro hmem
      rcases List.mem_append.mp hmem with hmem | hmem
      · by_cases hae : acc = []
        · rw [if_pos hae] at hmem
          simp at hmem
        · rw [if_neg hae] at hmem
          simp only [List.mem_singleton] at hmem
          exact hacc (by
            have : '\n' ∈ acc.reverse := by rw [← hmem]; simp
            simpa using this)
      · exact ih [] hcs (by simp) hmem
    · rw [if_neg hsp]
      exact ih (c :: acc) hcs (by
        intro hx
        rcases List.mem_cons.mp hx with hx | hx
        · exact hc hx.symm
        · exact hacc hx)

theorem tokenizeLine_no_marker {l : List Char} (h : '\n' ∉ l) : ['\n'] ∉ tokenizeLine l :=
  tokensAux_no_marker l [] h (by simp)

theorem splitMarkers_no_marker : ∀ A : List (List Char), ['\n'] ∉ A → splitMarkers A = [A] := by
  intro A
  induction A with
  | nil => intro _; rfl
  | cons t ts ih =>
    intro h
    have ht : t ≠ ['\n'] := fun hx => h (by simp [hx])
    have hts : ['\n'] ∉ ts := fun hx => h (by simp [hx])
    unfold splitMarkers
    rw [if_neg ht, ih hts]

theorem splitMarkers_append :
    ∀ (A ts : List (List Char)), ['\n'] ∉ A →
      splitMarkers (A ++ ['\n'] :: ts) = A :: splitMarkers ts := by
  intro A
  induction A with
  | nil =>
    intro ts _
    simp [splitMarkers]
  | cons t A ih =>
    intro ts h
    have ht : t ≠ ['\n'] := fun hx => h (by simp [hx])
    have hA : ['\n'] ∉ A := fun hx => h (by simp [hx])
    simp only [List.cons_append]
    rw [splitMarkers_cons_ne ht, ih ts hA]

theorem splitLinesToTokens_count :
    ∀ lines : List (List Char), lines ≠ [] → (∀ l ∈ lines, '\n' ∉ l) →
      (splitLinesToTokens lines).count ['\n'] = lines.length - 1 := by
  intro lines
  induction lines with
  | nil => intro h _; exact absurd rfl h
  | cons l ls ih =>
    intro _ hnl
    cases ls with
    | nil =>
      simp only [splitLinesToTokens]
      split_ifs with hl
      · simp
      · have h0 : ['\n'] ∉ tokenizeLine l := tokenizeLine_no_marker (hnl l (by simp))
        simp [List.count_eq_zero.mpr h0]
    | cons l2 ls2 =>
      have hrec := ih (by simp) (fun x hx => hnl x (by simp [hx]))
      simp only [splitLinesToTokens]
      rw [List.count_append]
      have h0 : (if l = [] then [] else tokenizeLine l).count ['\n'] = 0 := by
        split_ifs with hl
        · simp
        · exact List.count_eq_zero.mpr (tokenizeLine_no_marker (hnl l (by simp)))
      rw [h0, List.count_cons]
      simp only [splitLinesToTokens] at hrec
      rw [hrec]
      simp

theorem splitMarkers_splitLines :
    ∀ lines : List (List Char), lines ≠ [] → (∀ l ∈ lines, '\n' ∉ l) →
      splitMarkers (splitLinesToTokens lines) =
        lines.map fun l => if l = [] then [] else tokenizeLine l := by
  intro lines
  induction lines with
  | nil => intro h _; exact absurd rfl h
  | cons l ls ih =>
    intro _ hnl
    cases ls with
    | nil =>
      simp only [splitLinesToTokens, List.map_cons, List.map_nil]
      split_ifs with hl
      · rfl
      · exact splitMarkers_no_marker _ (tokenizeLine_no_marker (hnl l (by simp)))
    | cons l2 ls2 =>
      have hrec := ih (by simp) (fun x hx => hnl x (by simp [hx]))
      simp only [splitLinesToTokens, List.map_cons]
      rw [splitMarkers_append _ _ (by
        split_ifs with hl
        · simp
        · exact tokenizeLine_no_marker (hnl l (by simp)))]
      simp only [splitLinesToTokens] at hrec
      rw [hrec]
      simp

/-- C10: for every list of wrapped display lines (which contain no newline
character), the tokenizer emits exactly one `"\n"` marker per boundary
(`len(lines) - 1` markers in total), and feeding the token stream — sized by
any sizing function — to the typesetter yields logical lines whose word
contents are exactly the per-line token lists: the typesetter's logical lines
coincide with the wrapped display lines. -/
theorem tokenizer_marker_partition
    (lines : List (List Char)) (hne : lines ≠ []) (hnl : ∀ l ∈ lines, '\n' ∉ l)
    (sz : List Char → ℤ × ℤ) (left spacePx leadingPx baseLineH cx cy clh : ℚ) :
    (splitLinesToTokens lines).count ['\n'] = lines.length - 1 ∧
    (((placeWords left spacePx leadingPx baseLineH
        ((splitLinesToTokens lines).map fun t => ⟨t, (sz t).1, (sz t).2⟩) cx cy clh).1 ::
      (placeWords left spacePx leadingPx baseLineH
        ((splitLinesToTokens lines).map fun t => ⟨t, (sz t).1, (sz t).2⟩) cx cy clh).2).map
      (List.map fun pw => pw.content)) =
      lines.map (fun l => if l = [] then [] else tokenizeLine l) := by
  refine ⟨splitLinesToTokens_count lines hne hnl, ?_⟩
  rw [placeWords_groups]
  have hcont : (((splitLinesToTokens lines).map
      fun t => (⟨t, (sz t).1, (sz t).2⟩ : WordIn)).map fun w => w.content) =
      splitLinesToTokens lines := by
    rw [List.map_map]
    simp [Function.comp_def]
  rw [hcont]
  exact splitMarkers_splitLines lines hne hnl

/-- Witness for C10 on the display lines `["ab", "", "c"]`: two markers, and
the typeset logical lines are `[["ab"], [], ["c"]]`. -/
theorem tokenizer_marker_partition_witness :
    (([['a', 'b'], [], ['c']] : List (List Char)) ≠ []) ∧
    (∀ l ∈ ([['a', 'b'], [], ['c']] : List (List Char)), '\n' ∉ l) ∧
    (splitLinesToTokens [['a', 'b'], [], ['c']]).count ['\n'] =
      ([['a', 'b'], [], ['c']] : List (List Char)).length - 1 ∧
    (((placeWords 0 2 4 10
        ((splitLinesToTokens [['a', 'b'], [], ['c']]).map
          fun t => ⟨t, 5, 10⟩) 0 0 10).1 ::
      (placeWords 0 2 4 10
        ((splitLinesToTokens [['a', 'b'], [], ['c']]).map
          fun t => ⟨t, 5, 10⟩) 0 0 10).2).map
      (List.map fun pw => pw.content)) =
      ([['a', 'b'], [], ['c']] : List (List Char)).map
        (fun l => if l = [] then [] else tokenizeLine l) :=
  ⟨by decide, by decide,
    (tokenizer_marker_partition [['a', 'b'], [], ['c']] (by decide) (by decide)
      (fun _ => (5, 10)) 0 2 4 10 0 0 10).1,
    (tokenizer_marker_partition [['a', 'b'], [], ['c']] (by decide) (by decide)
      (fun _ => (5, 10)) 0 2 4 10 0 0 10).2⟩
